import Mathlib

set_option maxRecDepth 20000

/-!
Verification development for the section-chain routing core: a shallow
embedding of the prefix algebra (`src/routing_table/prefix.rs`) and the
chain state machine (`src/chain/chain.rs`), with theorems settling the
specification claims.  XorName bit operations, `SectionInfo`, `ProofSet`
and the `SharedState` helpers are modelled from the specification, since
their source files are not part of the repository snapshot; everything
else is translated directly from the Rust source.  The `log_or_panic!`
macro is modelled as a plain log (release behaviour): it does not alter
control flow.  A literal Rust `panic!` is modelled as a distinguished
error result.
-/

/-- Number of bits in a XOR-space address.  Modelled from the spec:
XOR_NAME_BITS = 8 × name byte length, typically 256. -/
def XOR_NAME_BITS : Nat := 256

/-- Number of leading positions on which two bit sequences agree. -/
def commonPfxLen : List Bool → List Bool → Nat
  | a :: as, b :: bs => if a = b then commonPfxLen as bs + 1 else 0
  | _, _ => 0

/-- Replace the bit at index `i` (no change when out of range). -/
def setBitList : List Bool → Nat → Bool → List Bool
  | [], _, _ => []
  | _ :: xs, 0, b => b :: xs
  | x :: xs, i + 1, b => x :: setBitList xs i b

/-- Flip the bit at index `i` (no change when out of range). -/
def flipBitList : List Bool → Nat → List Bool
  | [], _ => []
  | x :: xs, 0 => (!x) :: xs
  | x :: xs, i + 1 => x :: flipBitList xs i

/-- Set every bit from index `i` onwards to `v`. -/
def setFromList : List Bool → Nat → Bool → List Bool
  | [], _, _ => []
  | _ :: xs, 0, v => v :: setFromList xs 0 v
  | x :: xs, i + 1, v => x :: setFromList xs i v

/-- Bit at index `i`, defaulting to `false` out of range. -/
def getBitList (l : List Bool) (i : Nat) : Bool := l.getD i false

/-- Big-endian lexicographic comparison of bit sequences. -/
def lexCmpBits : List Bool → List Bool → Ordering
  | [], [] => .eq
  | [], _ :: _ => .lt
  | _ :: _, [] => .gt
  | a :: as, b :: bs => if a = b then lexCmpBits as bs else if b then .lt else .gt

/-- Pointwise exclusive or of two bit sequences. -/
def xorBits (a b : List Bool) : List Bool := List.zipWith (fun x y => xor x y) a b

theorem length_setBitList (l : List Bool) (i : Nat) (b : Bool) :
    (setBitList l i b).length = l.length := by
  induction l generalizing i with
  | nil => rfl
  | cons x xs ih => cases i with
    | zero => rfl
    | succ j => simpa [setBitList] using ih j

theorem length_flipBitList (l : List Bool) (i : Nat) :
    (flipBitList l i).length = l.length := by
  induction l generalizing i with
  | nil => rfl
  | cons x xs ih => cases i with
    | zero => rfl
    | succ j => simpa [flipBitList] using ih j

theorem length_setFromList (l : List Bool) (i : Nat) (v : Bool) :
    (setFromList l i v).length = l.length := by
  induction l generalizing i with
  | nil => rfl
  | cons x xs ih => cases i with
    | zero => simpa [setFromList] using ih 0
    | succ j => simpa [setFromList] using ih j

theorem getBit_cons_succ (x : Bool) (xs : List Bool) (j : Nat) :
    getBitList (x :: xs) (j + 1) = getBitList xs j := rfl

theorem getBit_setBit_ne (l : List Bool) (i j : Nat) (b : Bool) (h : j ≠ i) :
    getBitList (setBitList l i b) j = getBitList l j := by
  induction l generalizing i j with
  | nil => rfl
  | cons x xs ih =>
    cases i with
    | zero =>
      cases j with
      | zero => exact absurd rfl h
      | succ k => rfl
    | succ i' =>
      cases j with
      | zero => rfl
      | succ k =>
        simp only [setBitList, getBit_cons_succ]
        exact ih i' k (fun hk => h (by omega))

theorem getBit_flipBit_ne (l : List Bool) (i j : Nat) (h : j ≠ i) :
    getBitList (flipBitList l i) j = getBitList l j := by
  induction l generalizing i j with
  | nil => rfl
  | cons x xs ih =>
    cases i with
    | zero =>
      cases j with
      | zero => exact absurd rfl h
      | succ k => rfl
    | succ i' =>
      cases j with
      | zero => rfl
      | succ k =>
        simp only [flipBitList, getBit_cons_succ]
        exact ih i' k (fun hk => h (by omega))

theorem getBit_flipBit_self (l : List Bool) (i : Nat) (h : i < l.length) :
    getBitList (flipBitList l i) i = !(getBitList l i) := by
  induction l generalizing i with
  | nil => simp at h
  | cons x xs ih =>
    cases i with
    | zero => rfl
    | succ j =>
      simp only [flipBitList, getBit_cons_succ]
      exact ih j (by simpa using h)

theorem getBit_setFrom_lt (l : List Bool) (i j : Nat) (v : Bool) (h : j < i) :
    getBitList (setFromList l i v) j = getBitList l j := by
  induction l generalizing i j with
  | nil => rfl
  | cons x xs ih =>
    cases i with
    | zero => omega
    | succ i' =>
      cases j with
      | zero => rfl
      | succ k =>
        simp only [setFromList, getBit_cons_succ]
        exact ih i' k (by omega)

theorem commonPfxLen_ge_of_agree (l l' : List Bool) (i : Nat)
    (hlen : l.length = l'.length) (hi : i ≤ l.length)
    (hagree : ∀ j, j < i → getBitList l j = getBitList l' j) :
    i ≤ commonPfxLen l l' := by
  induction l generalizing l' i with
  | nil => simp at hi; omega
  | cons x xs ih =>
    cases l' with
    | nil => simp at hlen
    | cons y ys =>
      cases i with
      | zero => exact Nat.zero_le _
      | succ k =>
        have hx : x = y := hagree 0 (Nat.succ_pos k)
        have hk : k ≤ commonPfxLen xs ys := by
          refine ih ys k (by simpa using hlen) (by simpa using hi) ?_
          intro j hj
          exact hagree (j + 1) (by omega)
        subst hx
        have hue : commonPfxLen (x :: xs) (x :: ys) = commonPfxLen xs ys + 1 := by
          simp [commonPfxLen]
        rw [hue]
        omega

/-- A XOR-space address: a fixed-width bit sequence.  Modelled from the
spec (the `xor_name` source file is not in the snapshot). -/
def XorName : Type := { l : List Bool // l.length = XOR_NAME_BITS }

instance : DecidableEq XorName := fun a b =>
  decidable_of_iff (a.val = b.val) Subtype.ext_iff.symm

/-- Build a name from its leading bits, padding with zeros. -/
def padName (l : List Bool) : XorName :=
  ⟨l.take XOR_NAME_BITS ++ List.replicate (XOR_NAME_BITS - (l.take XOR_NAME_BITS).length) false,
   by simp [List.length_take]⟩

/-- Modelled from the spec: bit access by index. -/
def XorName.bitAt (n : XorName) (i : Nat) : Bool := getBitList n.val i

/-- Modelled from the spec: replace bit `i`; identity when `i` is out of
range. -/
def XorName.withBit (n : XorName) (i : Nat) (b : Bool) : XorName :=
  if XOR_NAME_BITS ≤ i then n
  else ⟨setBitList n.val i b, by rw [length_setBitList]; exact n.property⟩

/-- Modelled from the spec: flip bit `i`; identity when out of range. -/
def XorName.withFlippedBit (n : XorName) (i : Nat) : XorName :=
  if XOR_NAME_BITS ≤ i then n
  else ⟨flipBitList n.val i, by rw [length_flipBitList]; exact n.property⟩

/-- Modelled from the spec: set all bits from index `i` onwards to `v`. -/
def XorName.setRemaining (n : XorName) (i : Nat) (v : Bool) : XorName :=
  ⟨setFromList n.val i v, by rw [length_setFromList]; exact n.property⟩

/-- Modelled from the spec: common-prefix length of two names. -/
def XorName.commonPfx (a b : XorName) : Nat := commonPfxLen a.val b.val

/-- Numeric (big-endian) comparison of names. -/
def XorName.cmp (a b : XorName) : Ordering := lexCmpBits a.val b.val

/-- Modelled from the spec: `target.cmp_distance(a, b)` compares the
XOR-distances of `a` and `b` from `target` (`lt` when `a` is closer). -/
def XorName.cmpDistance (target a b : XorName) : Ordering :=
  lexCmpBits (xorBits a.val target.val) (xorBits b.val target.val)

/-- A section prefix: `bit_count` leading bits of a name
(`src/routing_table/prefix.rs`, struct `Prefix`).  The field `wf` is the
representation invariant maintained by every Rust constructor: the bit
count never exceeds `XOR_NAME_BITS`. -/
structure Pfx where
  bitCount : Nat
  name : XorName
  wf : bitCount ≤ XOR_NAME_BITS

instance : DecidableEq Pfx := fun a b =>
  decidable_of_iff (a.bitCount = b.bitCount ∧ a.name = b.name)
    (by cases a; cases b; simp)

/-- `Prefix::new`-style construction (used via `VersionedPrefix::new`):
caps `bit_count` at `XOR_NAME_BITS` and zeroes the insignificant bits. -/
def Pfx.new (bitCount : Nat) (name : XorName) : Pfx :=
  { bitCount := min bitCount XOR_NAME_BITS, name := name.setRemaining bitCount false,
    wf := Nat.min_le_right _ _ }

/-- `Prefix::is_compatible`. -/
def Pfx.isCompatible (a b : Pfx) : Bool :=
  let i := a.name.commonPfx b.name
  decide (a.bitCount ≤ i) || decide (b.bitCount ≤ i)

/-- `Prefix::is_extension_of`. -/
def Pfx.isExtensionOf (a b : Pfx) : Bool :=
  let i := a.name.commonPfx b.name
  decide (b.bitCount ≤ i) && decide (b.bitCount < a.bitCount)

/-- `Prefix::is_neighbour`. -/
def Pfx.isNeighbour (a b : Pfx) : Bool :=
  let i := a.name.commonPfx b.name
  if a.bitCount ≤ i ∨ b.bitCount ≤ i then false
  else
    let j := (a.name.withFlippedBit i).commonPfx b.name
    decide (a.bitCount ≤ j) || decide (b.bitCount ≤ j)

/-- `Prefix::matches`. -/
def Pfx.matches (p : Pfx) (n : XorName) : Bool :=
  decide (p.bitCount ≤ p.name.commonPfx n)

/-- Rust `==` on `Prefix` (custom `PartialEq`): compatible with equal bit
counts — trailing bits beyond `bit_count` are ignored. -/
def Pfx.eqR (a b : Pfx) : Bool := a.isCompatible b && a.bitCount == b.bitCount

/-- Rust `Ord` on `Prefix`. -/
def Pfx.cmpR (a b : Pfx) : Ordering :=
  if a.isCompatible b then compare a.bitCount b.bitCount
  else XorName.cmp a.name b.name

/-- `pushed` (the `VersionedPrefix::pushed` body acting on the prefix). -/
def Pfx.pushed (p : Pfx) (b : Bool) : Pfx :=
  { bitCount := min (p.bitCount + 1) XOR_NAME_BITS, name := p.name.withBit p.bitCount b,
    wf := Nat.min_le_right _ _ }

/-- `popped` (the `VersionedPrefix::popped` body acting on the prefix). -/
def Pfx.popped (p : Pfx) : Pfx :=
  if p.bitCount = 0 then p
  else { bitCount := p.bitCount - 1, name := p.name.withBit (p.bitCount - 1) false,
         wf := Nat.le_trans (Nat.sub_le _ _) p.wf }

/-- `with_flipped_bit` (via `VersionedPrefix::with_flipped_bit`). -/
def Pfx.withFlippedBit (p : Pfx) (i : Nat) : Pfx :=
  if p.bitCount ≤ i then p else Pfx.new p.bitCount (p.name.withFlippedBit i)

/-- `sibling`: flip the last bit, or identity when empty. -/
def Pfx.sibling (p : Pfx) : Pfx :=
  if 0 < p.bitCount then p.withFlippedBit (p.bitCount - 1) else p

/-- `Prefix::cmp_distance`. -/
def Pfx.cmpDistance (self other : Pfx) (target : XorName) : Ordering :=
  if self.isCompatible other then compare self.bitCount other.bitCount
  else compare (other.name.commonPfx target) (self.name.commonPfx target)

/-- `Prefix::lower_bound`. -/
def Pfx.lowerBound (p : Pfx) : XorName := p.name.setRemaining p.bitCount false

/-- `Prefix::upper_bound`. -/
def Pfx.upperBound (p : Pfx) : XorName := p.name.setRemaining p.bitCount true

/-- `is_covered_by_impl` with explicit fuel standing in for the Rust
recursion (which strictly deepens the prefix at each level). -/
def Pfx.coveredImpl : Nat → Pfx → List Pfx → Nat → Bool
  | 0, _, _, _ => false
  | f + 1, p, ps, maxLen =>
    ps.any (fun x => x.isCompatible p && decide (x.bitCount ≤ p.bitCount))
    || (decide (p.bitCount ≤ maxLen)
        && Pfx.coveredImpl f (p.pushed false) ps maxLen
        && Pfx.coveredImpl f (p.pushed true) ps maxLen)

/-- `is_covered_by`. -/
def Pfx.isCoveredBy (p : Pfx) (ps : List Pfx) : Bool :=
  let maxLen := ps.foldl (fun m x => max m x.bitCount) 0
  Pfx.coveredImpl (XOR_NAME_BITS + 1) p ps maxLen

/-- A prefix together with a section version
(`src/routing_table/prefix.rs`, struct `VersionedPrefix`). -/
structure VersionedPfx where
  pfx : Pfx
  version : Nat
deriving DecidableEq

/-- `VersionedPrefix::new`. -/
def VersionedPfx.new (bitCount : Nat) (name : XorName) (version : Nat) : VersionedPfx :=
  { pfx := Pfx.new bitCount name, version := version }

/-- `VersionedPrefix::pushed`. -/
def VersionedPfx.pushed (vp : VersionedPfx) (b : Bool) : VersionedPfx :=
  { vp with pfx := vp.pfx.pushed b }

/-- `VersionedPrefix::popped`. -/
def VersionedPfx.popped (vp : VersionedPfx) : VersionedPfx :=
  { vp with pfx := vp.pfx.popped }

/-- `VersionedPrefix::with_flipped_bit`. -/
def VersionedPfx.withFlippedBit (vp : VersionedPfx) (i : Nat) : VersionedPfx :=
  if vp.pfx.bitCount ≤ i then vp
  else VersionedPfx.new vp.pfx.bitCount (vp.pfx.name.withFlippedBit i) vp.version

/-- `VersionedPrefix::sibling`. -/
def VersionedPfx.sibling (vp : VersionedPfx) : VersionedPfx :=
  if 0 < vp.pfx.bitCount then vp.withFlippedBit (vp.pfx.bitCount - 1) else vp

/-- Rust `==` on `VersionedPrefix` (derived, with the custom prefix
equality on the `prefix` field). -/
def VersionedPfx.eqR (a b : VersionedPfx) : Bool :=
  Pfx.eqR a.pfx b.pfx && a.version == b.version

example : Pfx.eqR ((Pfx.new 3 (padName [true, false, true])).pushed true)
    (Pfx.new 4 (padName [true, false, true, true])) = true := by decide

example : Pfx.isNeighbour (Pfx.new 3 (padName [true, false, true]))
    (Pfx.new 4 (padName [true, true, true, true])) = true := by decide

example : Pfx.isNeighbour (Pfx.new 4 (padName [true, false, true, false]))
    (Pfx.new 4 (padName [true, true, true, true])) = false := by decide

/-- A peer identity.  Modelled from the spec: only the XOR-space name is
relevant to the core (keys/signatures live with external collaborators). -/
structure PublicId where
  name : XorName
deriving DecidableEq

/-- A set of proofs keyed by `pub_id`.  Modelled from the spec: the
signature payloads are validated externally, so a proof is represented by
its signer. -/
abbrev ProofSet := List PublicId

/-- `ProofSet::add_proof`: returns `false` when the signer already has a
proof in the set. -/
def ProofSet.addProof (ps : ProofSet) (p : PublicId) : ProofSet × Bool :=
  if p ∈ ps then (ps, false) else (ps ++ [p], true)

/-- `ProofSet::contains_id`. -/
def ProofSet.containsId (ps : ProofSet) (id : PublicId) : Bool := decide (id ∈ ps)

/-- An immutable signed description of a section at a version.  Modelled
from the spec: members, prefix, version, and a hash back-pointer to the
predecessor. -/
structure SectionInfo where
  members : List PublicId
  pfx : Pfx
  version : Nat
  prevHash : Option Nat
deriving DecidableEq

/-- Numeric encoding of a name (used for digests). -/
def encName (n : XorName) : Nat :=
  n.val.foldl (fun a b => 2 * a + cond b 1 0) 0

/-- Numeric encoding of a prefix. -/
def encPfx (p : Pfx) : Nat := encName p.name * 512 + p.bitCount

/-- Modelled from the spec: the deterministic digest of a `SectionInfo`. -/
def hashSI (si : SectionInfo) : Nat :=
  Nat.pair (encPfx si.pfx)
    (Nat.pair si.version
      (Nat.pair (si.members.foldl (fun a m => Nat.pair a (encName m.name)) 0)
        (match si.prevHash with | none => 0 | some h => h + 1)))

/-- Modelled from the spec: `SectionInfo::new` — version is predecessor
plus one, with a digest back-pointer to the predecessor. -/
def SectionInfo.new (members : List PublicId) (pfx : Pfx) (prev : Option SectionInfo) :
    SectionInfo :=
  { members := members, pfx := pfx,
    version := match prev with | some p => p.version + 1 | none => 0,
    prevHash := prev.map hashSI }

/-- `Default::default()` for `SectionInfo`. -/
def SectionInfo.default0 : SectionInfo :=
  { members := [],
    pfx := { bitCount := 0, name := padName [], wf := Nat.zero_le _ },
    version := 0, prevHash := Option.none }

/-- Modelled from the spec: `is_successor_of` — the version is the
predecessor's plus one and the back-pointer matches. -/
def SectionInfo.isSuccessorOf (si prev : SectionInfo) : Bool :=
  si.version == prev.version + 1 && si.prevHash == some (hashSI prev)

/-- Modelled from the spec: `is_quorum` — the proofs of members of `si`
cover at least QUORUM_NUMERATOR/QUORUM_DENOMINATOR = 2/3 of `si`'s
members. -/
def SectionInfo.isQuorum (si : SectionInfo) (ps : ProofSet) : Bool :=
  decide (2 * si.members.length ≤ 3 * (ps.filter (fun p => p ∈ si.members)).length)

/-- Modelled from the spec: `is_total_consensus` — every member signed. -/
def SectionInfo.isTotalConsensus (si : SectionInfo) (ps : ProofSet) : Bool :=
  si.members.all (fun m => decide (m ∈ ps))

/-- Sorted-set insertion of a name (mirrors `BTreeSet<XorName>`). -/
def insName (n : XorName) : List XorName → List XorName
  | [] => [n]
  | m :: ms =>
    match XorName.cmp n m with
    | .lt => n :: m :: ms
    | .eq => m :: ms
    | .gt => m :: insName n ms

/-- `SectionInfo::member_names`: the members' names as a sorted set. -/
def SectionInfo.memberNames (si : SectionInfo) : List XorName :=
  si.members.foldr (fun m acc => insName m.name acc) []

/-- Sorted-set insertion of a member (mirrors `BTreeSet<PublicId>`,
ordered by name). -/
def insMember (p : PublicId) : List PublicId → List PublicId
  | [] => [p]
  | m :: ms =>
    match XorName.cmp p.name m.name with
    | .lt => p :: m :: ms
    | .eq => m :: ms
    | .gt => m :: insMember p ms

/-- An entry of a section proof chain: prefix, version and section key
(`SectionKeyInfo`). -/
structure SectionKeyInfo where
  pfx : Pfx
  version : Nat
  key : Nat
deriving DecidableEq

/-- Modelled from the spec: the key info derived from a `SectionInfo`. -/
def keyInfoOf (si : SectionInfo) : SectionKeyInfo :=
  { pfx := si.pfx, version := si.version, key := hashSI si }

/-- Payload of `AckMessage`/`SendAckMessage`. -/
structure AckPayload where
  srcPfx : Pfx
  ackVersion : Nat
deriving DecidableEq

/-- Payload of `Online`. -/
structure OnlinePayload where
  newId : PublicId
  oldId : PublicId
deriving DecidableEq

/-- A XOR target interval for relocation. -/
structure TargetInterval where
  lo : XorName
  hi : XorName
deriving DecidableEq

/-- The `NetworkEvent` taxonomy (`src/chain/chain.rs` callers and the
spec's table). -/
inductive NetworkEvent where
  | sectionInfo (si : SectionInfo)
  | theirKeyInfo (ki : SectionKeyInfo)
  | ackMessage (ack : AckPayload)
  | sendAckMessage (ack : AckPayload)
  | ourMerge
  | neighbourMerge (digest : Nat)
  | addElder (id : PublicId) (interval : TargetInterval)
  | removeElder (id : PublicId)
  | online (payload : OnlinePayload)
  | offline (id : PublicId)
  | expectCandidate (id : PublicId)
  | purgeCandidate (id : PublicId)
deriving DecidableEq

/-- Rust `==` on `SectionInfo` (derived, with the custom prefix
equality). -/
def SectionInfo.eqR (a b : SectionInfo) : Bool :=
  a.members == b.members && Pfx.eqR a.pfx b.pfx && a.version == b.version
    && a.prevHash == b.prevHash

/-- Rust `==` on `SectionKeyInfo`. -/
def SectionKeyInfo.eqR (a b : SectionKeyInfo) : Bool :=
  Pfx.eqR a.pfx b.pfx && a.version == b.version && a.key == b.key

/-- Rust `==` on the ack payload. -/
def AckPayload.eqR (a b : AckPayload) : Bool :=
  Pfx.eqR a.srcPfx b.srcPfx && a.ackVersion == b.ackVersion

/-- Rust `==` on `NetworkEvent` (derived, with custom prefix equality in
the payloads). -/
def NetworkEvent.eqR : NetworkEvent → NetworkEvent → Bool
  | .sectionInfo a, .sectionInfo b => SectionInfo.eqR a b
  | .theirKeyInfo a, .theirKeyInfo b => SectionKeyInfo.eqR a b
  | .ackMessage a, .ackMessage b => AckPayload.eqR a b
  | .sendAckMessage a, .sendAckMessage b => AckPayload.eqR a b
  | .ourMerge, .ourMerge => true
  | .neighbourMerge a, .neighbourMerge b => a == b
  | .addElder a i, .addElder b j => a == b && i == j
  | .removeElder a, .removeElder b => a == b
  | .online a, .online b => a == b
  | .offline a, .offline b => a == b
  | .expectCandidate a, .expectCandidate b => a == b
  | .purgeCandidate a, .purgeCandidate b => a == b
  | _, _ => false

/-- Membership in a set of events under Rust equality. -/
def evMem (e : NetworkEvent) (l : List NetworkEvent) : Bool :=
  l.any (NetworkEvent.eqR e)

/-- `BTreeSet<NetworkEvent>::insert`. -/
def evInsert (l : List NetworkEvent) (e : NetworkEvent) : List NetworkEvent :=
  if evMem e l then l else l ++ [e]

/-- Accumulator lookup (`BTreeMap<NetworkEvent, ProofSet>` keyed by Rust
equality). -/
def accFind (l : List (NetworkEvent × ProofSet)) (e : NetworkEvent) : Option ProofSet :=
  (l.find? (fun q => NetworkEvent.eqR e q.1)).map (fun q => q.2)

/-- Accumulator key removal. -/
def accRemove (l : List (NetworkEvent × ProofSet)) (e : NetworkEvent) :
    List (NetworkEvent × ProofSet) :=
  l.filter (fun q => !(NetworkEvent.eqR e q.1))

/-- `BTreeMap::insert` on the accumulator: replaces the value at an
existing key (keeping the stored key) and returns the ejected value. -/
def accInsert : List (NetworkEvent × ProofSet) → NetworkEvent → ProofSet →
    Option ProofSet × List (NetworkEvent × ProofSet)
  | [], e, ps => (none, [(e, ps)])
  | (e', ps') :: rest, e, ps =>
    if NetworkEvent.eqR e e' then (some ps', (e', ps) :: rest)
    else
      let r := accInsert rest e ps
      (r.1, (e', ps') :: r.2)

/-- `entry(event).or_insert_with(ProofSet::new).add_proof(proof)`:
returns the updated accumulator and whether the proof was new. -/
def accAddProof : List (NetworkEvent × ProofSet) → NetworkEvent → PublicId →
    List (NetworkEvent × ProofSet) × Bool
  | [], e, p => ([(e, [p])], true)
  | (e', ps') :: rest, e, p =>
    if NetworkEvent.eqR e e' then
      if p ∈ ps' then ((e', ps') :: rest, false)
      else ((e', ps' ++ [p]) :: rest, true)
    else
      let r := accAddProof rest e p
      ((e', ps') :: r.1, r.2)

/-- `BTreeMap<Prefix, SectionInfo>::insert`: keeps the map sorted by the
Rust prefix order, replaces at an equal key (keeping the stored key) and
returns the ejected value. -/
def nmInsert : List (Pfx × SectionInfo) → Pfx → SectionInfo →
    Option SectionInfo × List (Pfx × SectionInfo)
  | [], k, v => (none, [(k, v)])
  | (k', v') :: rest, k, v =>
    match Pfx.cmpR k k' with
    | .lt => (none, (k, v) :: (k', v') :: rest)
    | .eq => (some v', (k', v) :: rest)
    | .gt =>
      let r := nmInsert rest k v
      (r.1, (k', v') :: r.2)

/-- Neighbour-map lookup. -/
def nmGet (l : List (Pfx × SectionInfo)) (k : Pfx) : Option SectionInfo :=
  (l.find? (fun q => Pfx.cmpR k q.1 == Ordering.eq)).map (fun q => q.2)

/-- Neighbour-map key test. -/
def nmContains (l : List (Pfx × SectionInfo)) (k : Pfx) : Bool :=
  l.any (fun q => Pfx.cmpR k q.1 == Ordering.eq)

/-- Modelled from the spec: `their_knowledge[src] = max(current,
version)`. -/
def tkUpdate : List (Pfx × Nat) → Pfx → Nat → List (Pfx × Nat)
  | [], k, v => [(k, v)]
  | (k', v') :: rest, k, v =>
    if Pfx.cmpR k k' == Ordering.eq then (k', max v' v) :: rest
    else (k', v') :: tkUpdate rest k v

/-- Modelled from the spec: update `their_keys[k.prefix]` with the latest
by (prefix compatibility, version). -/
def keysUpdate (l : List (Pfx × SectionKeyInfo)) (ki : SectionKeyInfo) :
    List (Pfx × SectionKeyInfo) :=
  if l.any (fun q => q.1.isCompatible ki.pfx && decide (ki.version ≤ q.2.version)) then l
  else l.filter (fun q => !(q.1.isCompatible ki.pfx)) ++ [(ki.pfx, ki)]

/-- Set insertion of a digest (`BTreeSet<Digest256>`). -/
def digInsert (l : List Nat) (d : Nat) : List Nat :=
  if d ∈ l then l else l ++ [d]

/-- The prefix-change phase. -/
inductive PfxChange where
  | none
  | splitting
  | merging
deriving DecidableEq

/-- The resource-proof candidate state. -/
inductive Candidate where
  | none
  | acceptedForResourceProof (oldId : PublicId) (interval : TargetInterval)
  | approved (oldId : PublicId)
deriving DecidableEq

/-- The per-node shared state.  Modelled from the spec (§3 SharedState);
`our_infos` is stored newest first. -/
structure SharedState where
  ourInfos : List SectionInfo
  newInfo : SectionInfo
  neighbourInfos : List (Pfx × SectionInfo)
  theirKeys : List (Pfx × SectionKeyInfo)
  theirKnowledge : List (Pfx × Nat)
  ourHistory : List SectionKeyInfo
  merging : List Nat
  splitCache : Option (SectionInfo × ProofSet)
  change : PfxChange
deriving DecidableEq

/-- `SharedState::our_info`: the most recent of `our_infos` (the list is
never empty on a constructed chain; the default is unreachable). -/
def SharedState.ourInfo (s : SharedState) : SectionInfo := s.ourInfos.headD SectionInfo.default0

/-- `SharedState::our_prefix`. -/
def SharedState.ourPfx (s : SharedState) : Pfx := s.ourInfo.pfx

/-- `SharedState::new`. -/
def SharedState.mkNew (first : SectionInfo) : SharedState :=
  { ourInfos := [first], newInfo := first, neighbourInfos := [], theirKeys := [],
    theirKnowledge := [], ourHistory := [keyInfoOf first], merging := [],
    splitCache := none, change := PfxChange.none }

/-- Modelled from the spec (§4.5 case B): append to `our_infos`, make it
the pending info, and extend the history chain. -/
def SharedState.pushOurNewInfo (s : SharedState) (si : SectionInfo) : SharedState :=
  { s with ourInfos := si :: s.ourInfos, newInfo := si,
           ourHistory := s.ourHistory ++ [keyInfoOf si] }

/-- `GenesisPfxInfo`; the serialized state is modelled from the spec as
the canonical encoding of `SharedState`, embedded as the state itself. -/
structure GenesisPfxInfo where
  firstInfo : SectionInfo
  firstStateSerialized : SharedState
  latestInfo : SectionInfo
deriving DecidableEq

/-- The routing error kinds relevant to the chain; `panicked` models a
literal Rust `panic!` on an execution path. -/
inductive RoutingErr where
  | invalidStateForOperation
  | invalidMessage
  | panicked
deriving DecidableEq

/-- Result of a fallible chain operation. -/
inductive CRes (α : Type) where
  | ok (val : α)
  | err (e : RoutingErr)
deriving DecidableEq

/-- The chain state machine (`src/chain/chain.rs`, struct `Chain`). -/
structure Chain where
  minSecSize : Nat
  ourId : PublicId
  state : SharedState
  isMember : Bool
  chainAccumulator : List (NetworkEvent × ProofSet)
  completedEvents : List NetworkEvent
  eventCache : List NetworkEvent
  candidate : Candidate
deriving DecidableEq

/-- `Chain::our_prefix`. -/
def Chain.ourPfx (c : Chain) : Pfx := c.state.ourPfx

/-- `Chain::our_info`. -/
def Chain.ourInfo (c : Chain) : SectionInfo := c.state.ourInfo

/-- Our own name. -/
def Chain.ourName (c : Chain) : XorName := c.ourId.name

/-- `Chain::new`. -/
def Chain.mkNew (minSecSize : Nat) (ourId : PublicId) (gen : GenesisPfxInfo) : Chain :=
  { minSecSize := minSecSize, ourId := ourId, state := SharedState.mkNew gen.firstInfo,
    isMember := decide (ourId ∈ gen.firstInfo.members), chainAccumulator := [],
    completedEvents := [], eventCache := [], candidate := Candidate.none }

/-- `delivery_group_size`: integer ceiling of n/3. -/
def deliveryGroupSize (n : Nat) : Nat := (n + 2) / 3

/-- `Chain::min_split_size` (`SPLIT_BUFFER = 1`). -/
def Chain.minSplitSize (c : Chain) : Nat := c.minSecSize + 1

/-- `Chain::compatible_neighbour_info`: the first compatible neighbour
entry in map order. -/
def Chain.compatibleNeighbourInfo (c : Chain) (si : SectionInfo) : Option SectionInfo :=
  (c.state.neighbourInfos.find? (fun q => q.1.isCompatible si.pfx)).map (fun q => q.2)

/-- `Chain::should_skip_accumulator`. -/
def Chain.shouldSkipAccumulator (c : Chain) (e : NetworkEvent) : Bool :=
  match e with
  | NetworkEvent.sectionInfo si =>
    (si.pfx.matches c.ourName && decide (si.version ≤ c.ourInfo.version))
    || c.state.neighbourInfos.any
        (fun q => Pfx.eqR q.1 si.pfx && decide (si.version ≤ q.2.version))
  | _ => false

/-- `Chain::can_handle_vote`. -/
def Chain.canHandleVote (c : Chain) (e : NetworkEvent) : Bool :=
  match c.state.change, e with
  | PfxChange.none, _ => true
  | PfxChange.merging, NetworkEvent.ourMerge => true
  | PfxChange.merging, NetworkEvent.neighbourMerge _ => true
  | _, NetworkEvent.sectionInfo si =>
    !(si.pfx.isCompatible c.ourPfx && decide (c.state.newInfo.version < si.version))
  | _, _ => false

/-- `Chain::cache_event` (the log when not splitting or merging is
modelled as a log; the result is always `Ok`). -/
def Chain.cacheEvent (c : Chain) (e : NetworkEvent) (senderId : PublicId) : Chain :=
  if c.ourId = senderId then { c with eventCache := evInsert c.eventCache e } else c

/-- `Chain::handle_opaque_event`. -/
def Chain.handleOpaqueEvent (c : Chain) (e : NetworkEvent) (pf : PublicId) :
    Chain × CRes Unit :=
  if c.shouldSkipAccumulator e then (c, CRes.ok ())
  else if !(c.canHandleVote e) then (c.cacheEvent e pf, CRes.ok ())
  else if evMem e c.completedEvents then (c, CRes.ok ())
  else
    let r := accAddProof c.chainAccumulator e pf
    ({ c with chainAccumulator := r.1 }, CRes.ok ())

/-- The body of `Chain::handle_churn_event` after the event-kind gate. -/
def Chain.handleChurnCore (c : Chain) (e : NetworkEvent) (ps : ProofSet) :
    Chain × CRes Unit :=
  if !(c.canHandleVote e) then (c.cacheEvent e c.ourId, CRes.ok ())
  else if evMem e c.completedEvents then (c, CRes.ok ())
  else ({ c with chainAccumulator := (accInsert c.chainAccumulator e ps).2 }, CRes.ok ())

/-- `Chain::handle_churn_event`. -/
def Chain.handleChurnEvent (c : Chain) (e : NetworkEvent) (ps : ProofSet) :
    Chain × CRes Unit :=
  match e with
  | NetworkEvent.addElder _ _ => c.handleChurnCore e ps
  | NetworkEvent.removeElder _ => c.handleChurnCore e ps
  | _ => (c, CRes.err RoutingErr.invalidStateForOperation)

/-- `Chain::is_valid_transition`. -/
def Chain.isValidTransition (c : Chain) (e : NetworkEvent) (proofs : ProofSet) : Bool :=
  match e with
  | NetworkEvent.sectionInfo info =>
    let isNewer : SectionInfo → Bool := fun i =>
      info.pfx.isCompatible i.pfx && decide (info.version ≤ i.version)
    if (match c.compatibleNeighbourInfo info with
        | some n => isNewer n
        | none => false) || isNewer c.ourInfo then false
    else if info.pfx.matches c.ourName then
      info.isSuccessorOf c.ourInfo && c.ourInfo.isQuorum proofs
    else c.ourInfo.isQuorum proofs
  | NetworkEvent.sendAckMessage _ =>
    c.state.change == PfxChange.none && c.ourInfo.isTotalConsensus proofs
  | NetworkEvent.ourMerge => c.ourInfo.isQuorum proofs
  | NetworkEvent.neighbourMerge _ => c.ourInfo.isQuorum proofs
  | _ => c.state.change == PfxChange.none && c.ourInfo.isQuorum proofs

/-- `Chain::check_and_clean_neighbour_infos`: drop entries whose prefix
is no longer our neighbour, and older compatible entries unless they are
an extension (split) of the newer one. -/
def Chain.checkAndCleanNeighbourInfos (c : Chain) : Chain :=
  let nis := c.state.neighbourInfos
  let keep : Pfx × SectionInfo → Bool := fun q =>
    c.ourPfx.isNeighbour q.1
    && !(nis.any (fun o =>
          o.1.isCompatible q.1 && decide (q.2.version < o.2.version)
            && !(q.1.isExtensionOf o.1)))
  { c with state := { c.state with neighbourInfos := nis.filter keep } }

/-- `Chain::do_add_section_info`. -/
def Chain.doAddSectionInfo (c : Chain) (secInfo : SectionInfo) (proofs : ProofSet) :
    Chain × CRes Unit :=
  let pfx := secInfo.pfx
  if pfx.matches c.ourName then
    let isNewMember := !c.isMember && decide (c.ourId ∈ secInfo.members)
    let c := { c with state := c.state.pushOurNewInfo secInfo }
    let c := if isNewMember then { c with isMember := true } else c
    (c.checkAndCleanNeighbourInfos, CRes.ok ())
  else
    let ppfx := secInfo.pfx.popped
    let spfx := secInfo.pfx.sibling
    let v := secInfo.version
    if c.state.ourInfos.any (fun oi => oi.isQuorum proofs) then
      let r := nmInsert c.state.neighbourInfos pfx secInfo
      let c := { c with state := { c.state with neighbourInfos := r.2 } }
      let c :=
        match nmGet c.state.neighbourInfos ppfx with
        | some psecInfo =>
          if decide (psecInfo.version < v) && c.ourPfx.isNeighbour spfx
              && !(nmContains c.state.neighbourInfos spfx) then
            { c with state := { c.state with
                neighbourInfos := (nmInsert c.state.neighbourInfos spfx psecInfo).2 } }
          else c
        | none => c
      (c.checkAndCleanNeighbourInfos, CRes.ok ())
    else (c, CRes.err RoutingErr.invalidMessage)

/-- `Chain::add_section_info`: split rendezvous through the split cache,
installing our own info first. -/
def Chain.addSectionInfo (c : Chain) (secInfo : SectionInfo) (proofs : ProofSet) :
    Chain × CRes Unit :=
  if secInfo.pfx.isExtensionOf c.ourPfx then
    match c.state.splitCache with
    | none =>
      ({ c with state := { c.state with splitCache := some (secInfo, proofs) } },
       CRes.ok ())
    | some (cacheInfo, cacheProofs) =>
      let c := { c with state := { c.state with splitCache := none } }
      if cacheInfo.pfx.matches c.ourName then
        let r1 := c.doAddSectionInfo cacheInfo cacheProofs
        match r1.2 with
        | CRes.err e => (r1.1, CRes.err e)
        | CRes.ok _ => r1.1.doAddSectionInfo secInfo proofs
      else
        let r1 := c.doAddSectionInfo secInfo proofs
        match r1.2 with
        | CRes.err e => (r1.1, CRes.err e)
        | CRes.ok _ => r1.1.doAddSectionInfo cacheInfo cacheProofs
  else c.doAddSectionInfo secInfo proofs

/-- `Chain::poll`: select an accumulator entry that is a valid
transition, complete it and dispatch.  The `OurMerge` arm models the
source's `panic!` as the `panicked` error. -/
def Chain.poll (c : Chain) : Chain × CRes (Option NetworkEvent) :=
  match c.chainAccumulator.find? (fun q => c.isValidTransition q.1 q.2) with
  | none => (c, CRes.ok Option.none)
  | some (event, proofs) =>
    let c := { c with completedEvents := evInsert c.completedEvents event,
                      chainAccumulator := accRemove c.chainAccumulator event }
    match event with
    | NetworkEvent.sectionInfo si =>
      let r := c.addSectionInfo si proofs
      match r.2 with
      | CRes.err e => (r.1, CRes.err e)
      | CRes.ok _ =>
        match r.1.state.splitCache with
        | some (cached, _) =>
          if SectionInfo.eqR cached si then (r.1, CRes.ok Option.none)
          else (r.1, CRes.ok (some event))
        | none => (r.1, CRes.ok (some event))
    | NetworkEvent.theirKeyInfo ki =>
      ({ c with state := { c.state with theirKeys := keysUpdate c.state.theirKeys ki } },
       CRes.ok (some event))
    | NetworkEvent.ackMessage ack =>
      ({ c with state := { c.state with
          theirKnowledge := tkUpdate c.state.theirKnowledge ack.srcPfx ack.ackVersion } },
       CRes.ok (some event))
    | NetworkEvent.ourMerge =>
      ({ c with state := { c.state with
          merging := digInsert c.state.merging (hashSI c.state.newInfo),
          change := PfxChange.merging } },
       CRes.err RoutingErr.panicked)
    | NetworkEvent.neighbourMerge d =>
      ({ c with state := { c.state with merging := digInsert c.state.merging d } },
       CRes.ok (some event))
    | _ => (c, CRes.ok (some event))

/-- `Chain::should_split`.  `should_vote_for_merge` lives in the missing
`SharedState` source, so it enters as the boolean parameter `svfm`. -/
def Chain.shouldSplit (c : Chain) (members : List PublicId) (svfm : Bool) : Bool :=
  if c.state.change != PfxChange.none || svfm then false
  else
    let newSize := (members.filter (fun id =>
      decide (c.ourPfx.bitCount < c.ourName.commonPfx id.name))).length
    decide (c.minSplitSize ≤ newSize)
      && decide (c.minSplitSize + newSize ≤ members.length)

/-- `Chain::split_self`. -/
def Chain.splitSelf (c : Chain) (members : List PublicId) :
    Chain × SectionInfo × SectionInfo :=
  let nextBit := c.ourName.bitAt c.ourPfx.bitCount
  let ourNewPfx := c.ourPfx.pushed nextBit
  let otherPfx := c.ourPfx.pushed (!nextBit)
  let ourNewSection := members.filter (fun id => ourNewPfx.matches id.name)
  let otherSection := members.filter (fun id => !(ourNewPfx.matches id.name))
  let ourNewInfo := SectionInfo.new ourNewSection ourNewPfx (some c.state.newInfo)
  let otherInfo := SectionInfo.new otherSection otherPfx (some c.state.newInfo)
  ({ c with state := { c.state with newInfo := ourNewInfo } }, ourNewInfo, otherInfo)

/-- `Chain::add_member` (logs on a pending prefix change or a foreign
name are modelled as logs). -/
def Chain.addMember (c : Chain) (pubId : PublicId) (svfm : Bool) :
    Chain × CRes (List SectionInfo) :=
  let members := insMember pubId c.state.newInfo.members
  if c.shouldSplit members svfm then
    let r := c.splitSelf members
    ({ r.1 with state := { r.1.state with change := PfxChange.splitting } },
     CRes.ok [r.2.1, r.2.2])
  else
    let newInfo := SectionInfo.new members c.state.newInfo.pfx (some c.state.newInfo)
    ({ c with state := { c.state with newInfo := newInfo } }, CRes.ok [newInfo])

/-- `Chain::remove_member`: when the shrunken section drops below
`min_sec_size`, the change is set to `Merging` and the source panics
("Merge not supported"), modelled as the `panicked` error. -/
def Chain.removeMember (c : Chain) (pubId : PublicId) : Chain × CRes SectionInfo :=
  let members := c.state.newInfo.members.filter (fun m => m != pubId)
  let newInfo := SectionInfo.new members c.state.newInfo.pfx (some c.state.newInfo)
  let c := { c with state := { c.state with newInfo := newInfo } }
  if newInfo.members.length < c.minSecSize then
    ({ c with state := { c.state with change := PfxChange.merging } },
     CRes.err RoutingErr.panicked)
  else (c, CRes.ok newInfo)

/-- The outcome of finalising a prefix change (`PrefixChangeOutcome`);
`cached_events` is a set collected from the listed parts, modelled as
their concatenation. -/
structure PfxChangeOutcome where
  genPfxInfo : GenesisPfxInfo
  cachedEvents : List NetworkEvent
  completedEvents : List NetworkEvent
deriving DecidableEq

/-- `Chain::finalise_prefix_change`. -/
def Chain.finalisePrefixChange (c : Chain) : Chain × PfxChangeOutcome :=
  let c := c.checkAndCleanNeighbourInfos
  let completed := c.completedEvents
  let chainAcc := c.chainAccumulator
  let cache := c.eventCache
  let merges := c.state.merging.map NetworkEvent.neighbourMerge
  let c1 := { c with
    state := { c.state with change := PfxChange.none, merging := [] },
    completedEvents := [], chainAccumulator := [], eventCache := [] }
  (c1,
   { genPfxInfo := { firstInfo := c1.ourInfo, firstStateSerialized := c1.state,
                     latestInfo := SectionInfo.default0 },
     cachedEvents :=
       (chainAcc.filter (fun q =>
         !(evMem q.1 completed) && q.2.containsId c.ourId)).map (fun q => q.1)
       ++ cache ++ merges,
     completedEvents := completed })

/-- `Chain::all_sections`: neighbours then our own section. -/
def Chain.allSections (c : Chain) : List (Pfx × SectionInfo) :=
  c.state.neighbourInfos ++ [(c.ourInfo.pfx, c.ourInfo)]

/-- `Chain::prefixes`: all known section prefixes. -/
def Chain.knownPfxs (c : Chain) : List Pfx :=
  c.state.neighbourInfos.map (fun q => q.1) ++ [c.ourInfo.pfx]

/-- `Chain::get_section_legacy`. -/
def Chain.getSectionLegacy (c : Chain) (n : XorName) : Option (List XorName) :=
  if c.ourPfx.matches n then some c.ourInfo.memberNames
  else (c.state.neighbourInfos.find? (fun q => q.1.matches n)).map
    (fun q => q.2.memberNames)

/-- `Chain::has`. -/
def Chain.hasName (c : Chain) (n : XorName) : Bool :=
  match c.getSectionLegacy n with
  | some sect => decide (n ∈ sect)
  | none => false

/-- `Chain::closest_section`. -/
def Chain.closestSection (c : Chain) (n : XorName) : Pfx × List XorName :=
  let best := c.state.neighbourInfos.foldl
    (fun (best : Pfx × SectionInfo) entry =>
      if !entry.2.members.isEmpty && (best.1.cmpDistance entry.1 n == Ordering.gt)
      then entry else best)
    (c.ourPfx, c.ourInfo)
  (best.1, best.2.memberNames)

/-- Stable insertion used to model Rust's stable `sort_by`. -/
def insertByCmp {α : Type} (cmp : α → α → Ordering) (x : α) : List α → List α
  | [] => [x]
  | y :: ys =>
    if cmp x y == Ordering.gt then y :: insertByCmp cmp x ys else x :: y :: ys

/-- Stable sort by a comparison (insertion sort). -/
def stableSortBy {α : Type} (cmp : α → α → Ordering) (l : List α) : List α :=
  l.foldr (insertByCmp cmp) []

/-- `Chain::closest_sections`: our section first, then neighbours,
stably sorted by prefix distance to `n`. -/
def Chain.closestSections (c : Chain) (n : XorName) : List (Pfx × List XorName) :=
  let base := (c.ourPfx, c.ourInfo.memberNames) ::
    c.state.neighbourInfos.map (fun q => (q.1, q.2.memberNames))
  stableSortBy (fun a b => a.1.cmpDistance b.1 n) base

/-- Result of target selection (`Result<(Vec<XorName>, usize), Error>`). -/
inductive TRes where
  | ok (names : List XorName) (dg : Nat)
  | cannotRoute
deriving DecidableEq

/-- The loop of the `candidates` closure in `Chain::targets`. -/
def candLoop (c : Chain) (connected : List XorName) :
    List (Pfx × List XorName) → Nat → List XorName → Nat → Nat × List XorName
  | [], _, nodes, dg => (dg, nodes)
  | (pfx, members) :: rest, idx, nodes0, _ =>
    let nodes := nodes0 ++ members.filter (fun m => decide (m ∈ connected))
    let dg := deliveryGroupSize members.length
    if Pfx.eqR pfx c.ourPfx then
      let nodes := nodes.filter (fun m => m != c.ourName)
      (nodes.length, nodes)
    else if idx == 0 && decide (dg ≤ nodes.length) then (dg, nodes)
    else candLoop c connected rest (idx + 1) nodes dg

/-- The `candidates` closure in `Chain::targets`. -/
def Chain.candidatesFor (c : Chain) (connected : List XorName) (targetName : XorName) :
    TRes :=
  let secs := c.closestSections targetName
  let r := candLoop c connected secs 0 [] 0
  let nodes := stableSortBy (fun a b => XorName.cmpDistance targetName a b) r.2
  if decide (0 < r.1) && decide (r.1 ≤ nodes.length) then TRes.ok nodes r.1
  else TRes.cannotRoute

/-- Destination authorities (`Authority<XorName>`). -/
inductive Authority where
  | clientManager (n : XorName)
  | naeManager (n : XorName)
  | nodeManager (n : XorName)
  | sectionAuth (n : XorName)
  | prefixSection (p : Pfx)
  | managedNode (n : XorName)
  | client (proxyNodeName : XorName)
deriving DecidableEq

/-- The `ManagedNode`/`Client` arm of `Chain::targets`. -/
def Chain.targetsNode (c : Chain) (targetName : XorName) (connected : List XorName) :
    TRes :=
  if targetName = c.ourName then TRes.ok [] 0
  else if c.hasName targetName && decide (targetName ∈ connected) then
    TRes.ok [targetName] 1
  else c.candidatesFor connected targetName

/-- The group-authority arm of `Chain::targets`. -/
def Chain.targetsGroup (c : Chain) (n : XorName) (connected : List XorName) : TRes :=
  let r := c.closestSection n
  if Pfx.eqR r.1 c.ourPfx then
    let sect := (r.2.filter (fun m => m != c.ourName)).filter
      (fun m => decide (m ∈ connected))
    TRes.ok sect sect.length
  else c.candidatesFor connected n

/-- `Chain::targets`. -/
def Chain.targets (c : Chain) (dst : Authority) (connected : List XorName) : TRes :=
  match dst with
  | Authority.managedNode targetName => c.targetsNode targetName connected
  | Authority.client proxy => c.targetsNode proxy connected
  | Authority.clientManager n => c.targetsGroup n connected
  | Authority.naeManager n => c.targetsGroup n connected
  | Authority.nodeManager n => c.targetsGroup n connected
  | Authority.sectionAuth n => c.targetsGroup n connected
  | Authority.prefixSection p =>
    if p.isCompatible c.ourPfx then
      if !(p.isCoveredBy c.knownPfxs) then TRes.cannotRoute
      else
        let tg := ((c.allSections.filter (fun q => p.isCompatible q.1)).map
            (fun q => q.2.memberNames)).flatten.filter
            (fun nm => decide (nm ∈ connected) && nm != c.ourName)
        TRes.ok tg tg.length
    else c.candidatesFor connected p.lowerBound

theorem getBit_out_of_range (l : List Bool) (j : Nat) (h : l.length ≤ j) :
    getBitList l j = false := by
  induction l generalizing j with
  | nil => rfl
  | cons x xs ih =>
    cases j with
    | zero => simp at h
    | succ k => exact ih k (by simpa using h)

theorem getBit_setFrom_false_ge (l : List Bool) (i j : Nat) (h : i ≤ j) :
    getBitList (setFromList l i false) j = false := by
  induction l generalizing i j with
  | nil => rfl
  | cons x xs ih =>
    cases i with
    | zero =>
      cases j with
      | zero => rfl
      | succ k => exact ih 0 k (Nat.zero_le k)
    | succ i' =>
      cases j with
      | zero => omega
      | succ k => exact ih i' k (by omega)

theorem commonPfxLen_self (l : List Bool) : commonPfxLen l l = l.length := by
  induction l with
  | nil => rfl
  | cons x xs ih => simp [commonPfxLen, ih]

theorem getBit_agree_of_lt_commonPfxLen (a b : List Bool) (j : Nat)
    (h : j < commonPfxLen a b) : getBitList a j = getBitList b j := by
  induction a generalizing b j with
  | nil => simp [commonPfxLen] at h
  | cons x xs ih =>
    cases b with
    | nil => simp [commonPfxLen] at h
    | cons y ys =>
      by_cases hxy : x = y
      · subst hxy
        cases j with
        | zero => rfl
        | succ k =>
          have hue : commonPfxLen (x :: xs) (x :: ys) = commonPfxLen xs ys + 1 := by
            simp [commonPfxLen]
          rw [hue] at h
          exact ih ys k (by omega)
      · simp [commonPfxLen, hxy] at h

theorem list_eq_iff_getBit (a b : List Bool) (h : a.length = b.length) :
    a = b ↔ ∀ j, getBitList a j = getBitList b j := by
  constructor
  · intro he j; rw [he]
  · intro hj
    induction a generalizing b with
    | nil => cases b with
      | nil => rfl
      | cons y ys => simp at h
    | cons x xs ih =>
      cases b with
      | nil => simp at h
      | cons y ys =>
        have hx : x = y := hj 0
        have : xs = ys := ih ys (by simpa using h) (fun j => hj (j + 1))
        rw [hx, this]

theorem Pfx.eqR_true_iff (a b : Pfx) :
    Pfx.eqR a b = true ↔
      a.bitCount = b.bitCount ∧
        ∀ j, j < a.bitCount → getBitList a.name.val j = getBitList b.name.val j := by
  constructor
  · intro h
    rw [Pfx.eqR, Bool.and_eq_true] at h
    have hbc : a.bitCount = b.bitCount := by
      have := h.2; simpa using this
    refine ⟨hbc, ?_⟩
    intro j hj
    have h1 := h.1
    simp only [Pfx.isCompatible, XorName.commonPfx, Bool.or_eq_true,
      decide_eq_true_eq] at h1
    have hcom : a.bitCount ≤ commonPfxLen a.name.val b.name.val := by
      rcases h1 with hc | hc
      · exact hc
      · omega
    exact getBit_agree_of_lt_commonPfxLen a.name.val b.name.val j (by omega)
  · rintro ⟨hbc, hag⟩
    rw [Pfx.eqR, Bool.and_eq_true]
    constructor
    · rw [Pfx.isCompatible, Bool.or_eq_true]
      left
      apply decide_eq_true
      rw [XorName.commonPfx]
      exact commonPfxLen_ge_of_agree a.name.val b.name.val a.bitCount
        (by rw [a.name.property, b.name.property])
        (by rw [a.name.property]; exact a.wf) hag
    · simpa using hbc

/-- The canonical form of a prefix: insignificant bits zeroed.  Rust `==`
on prefixes is equality of canonical forms. -/
def Pfx.canon (p : Pfx) : Pfx := Pfx.new p.bitCount p.name

theorem Pfx.canon_bitCount (p : Pfx) : (Pfx.canon p).bitCount = p.bitCount := by
  simp only [Pfx.canon, Pfx.new]
  exact Nat.min_eq_left p.wf

theorem getBit_canonName (p : Pfx) (j : Nat) :
    getBitList (Pfx.canon p).name.val j =
      if j < p.bitCount then getBitList p.name.val j else false := by
  simp only [Pfx.canon, Pfx.new, XorName.setRemaining]
  by_cases hj : j < p.bitCount
  · rw [if_pos hj]
    exact getBit_setFrom_lt p.name.val p.bitCount j false hj
  · rw [if_neg hj]
    exact getBit_setFrom_false_ge p.name.val p.bitCount j (by omega)

theorem pfx_eqR_iff_canon (a b : Pfx) : Pfx.eqR a b = true ↔ a.canon = b.canon := by
  rw [Pfx.eqR_true_iff]
  constructor
  · rintro ⟨hbc, hag⟩
    have hn : (Pfx.canon a).name = (Pfx.canon b).name := by
      apply Subtype.ext
      rw [list_eq_iff_getBit _ _ (by rw [(Pfx.canon a).name.property, (Pfx.canon b).name.property])]
      intro j
      rw [getBit_canonName, getBit_canonName, ← hbc]
      by_cases hj : j < a.bitCount
      · rw [if_pos hj, if_pos hj]; exact hag j hj
      · rw [if_neg hj, if_neg hj]
    have hbc2 : (Pfx.canon a).bitCount = (Pfx.canon b).bitCount := by
      rw [Pfx.canon_bitCount, Pfx.canon_bitCount, hbc]
    cases hca : Pfx.canon a
    cases hcb : Pfx.canon b
    simp_all
  · intro h
    have hbc : a.bitCount = b.bitCount := by
      rw [← Pfx.canon_bitCount a, ← Pfx.canon_bitCount b, h]
    refine ⟨hbc, ?_⟩
    intro j hj
    have := congrArg (fun p => getBitList p.name.val j) h
    simp only [getBit_canonName] at this
    rw [if_pos hj, ← hbc, if_pos hj] at this
    exact this

theorem pfx_eqR_refl (p : Pfx) : Pfx.eqR p p = true :=
  (pfx_eqR_iff_canon p p).mpr rfl

/-- Canonical form of a `SectionInfo` under Rust equality. -/
def SectionInfo.canon (si : SectionInfo) : SectionInfo := { si with pfx := si.pfx.canon }

theorem si_eqR_iff_canon (a b : SectionInfo) :
    SectionInfo.eqR a b = true ↔ a.canon = b.canon := by
  cases a
  cases b
  simp [SectionInfo.eqR, SectionInfo.canon, Bool.and_eq_true, beq_iff_eq,
    pfx_eqR_iff_canon]
  tauto

theorem si_eqR_refl (si : SectionInfo) : SectionInfo.eqR si si = true :=
  (si_eqR_iff_canon si si).mpr rfl

/-- Canonical form of a `SectionKeyInfo`. -/
def SectionKeyInfo.canon (ki : SectionKeyInfo) : SectionKeyInfo :=
  { ki with pfx := ki.pfx.canon }

theorem ki_eqR_iff_canon (a b : SectionKeyInfo) :
    SectionKeyInfo.eqR a b = true ↔ a.canon = b.canon := by
  cases a
  cases b
  simp [SectionKeyInfo.eqR, SectionKeyInfo.canon, Bool.and_eq_true, beq_iff_eq,
    pfx_eqR_iff_canon]
  tauto

/-- Canonical form of an ack payload. -/
def AckPayload.canon (a : AckPayload) : AckPayload := { a with srcPfx := a.srcPfx.canon }

theorem ack_eqR_iff_canon (a b : AckPayload) :
    AckPayload.eqR a b = true ↔ a.canon = b.canon := by
  cases a
  cases b
  simp [AckPayload.eqR, AckPayload.canon, Bool.and_eq_true, beq_iff_eq,
    pfx_eqR_iff_canon]

/-- Canonical form of a network event under Rust equality. -/
def NetworkEvent.canon : NetworkEvent → NetworkEvent
  | NetworkEvent.sectionInfo si => NetworkEvent.sectionInfo si.canon
  | NetworkEvent.theirKeyInfo ki => NetworkEvent.theirKeyInfo ki.canon
  | NetworkEvent.ackMessage a => NetworkEvent.ackMessage a.canon
  | NetworkEvent.sendAckMessage a => NetworkEvent.sendAckMessage a.canon
  | e => e

theorem ev_eqR_iff_canon (a b : NetworkEvent) :
    NetworkEvent.eqR a b = true ↔ a.canon = b.canon := by
  cases a <;> cases b <;>
    simp [NetworkEvent.eqR, NetworkEvent.canon, si_eqR_iff_canon,
      ki_eqR_iff_canon, ack_eqR_iff_canon, Bool.and_eq_true,
      beq_iff_eq]

theorem ev_eqR_refl (e : NetworkEvent) : NetworkEvent.eqR e e = true :=
  (ev_eqR_iff_canon e e).mpr rfl

theorem NetworkEvent.eqR_congr {a b : NetworkEvent}
    (h : NetworkEvent.eqR a b = true) (x : NetworkEvent) :
    NetworkEvent.eqR a x = NetworkEvent.eqR b x := by
  have hc : a.canon = b.canon := (ev_eqR_iff_canon a b).mp h
  cases hbx : NetworkEvent.eqR b x with
  | true =>
    exact (ev_eqR_iff_canon a x).mpr
      (hc.trans ((ev_eqR_iff_canon b x).mp hbx))
  | false =>
    cases hax : NetworkEvent.eqR a x with
    | true =>
      exfalso
      have : b.canon = x.canon := hc.symm.trans ((ev_eqR_iff_canon a x).mp hax)
      rw [(ev_eqR_iff_canon b x).mpr this] at hbx
      exact Bool.noConfusion hbx
    | false => rfl

/-! Concrete scenario data used by witnesses and counterexamples. -/

/-- Name 1000… -/
def nA : XorName := padName [true]

/-- Name 1100… -/
def nB : XorName := padName [true, true]

/-- Name 1010… -/
def nC : XorName := padName [true, false, true]

/-- Name 0000… -/
def nQ : XorName := padName []

/-- Our node in the scenarios. -/
def mA : PublicId := { name := nA }

/-- A fellow member. -/
def mB : PublicId := { name := nB }

/-- A fellow member. -/
def mC : PublicId := { name := nC }

/-- A member of the neighbouring 0-side section. -/
def mQ : PublicId := { name := nQ }

/-- The prefix "1". -/
def pfx1 : Pfx := Pfx.new 1 (padName [true])

/-- The prefix "0". -/
def pfx0 : Pfx := Pfx.new 1 (padName [])

/-- The prefix "00". -/
def pfx00 : Pfx := Pfx.new 2 (padName [])

/-- The empty prefix. -/
def pfxEmpty : Pfx := Pfx.new 0 (padName [])

/-- Members of our section, sorted by name. -/
def ourMembers : List PublicId := [mA, mC, mB]

/-- Our genesis section info: prefix "1", version 0. -/
def siOur : SectionInfo := SectionInfo.new ourMembers pfx1 Option.none

/-- Genesis info for the scenario chains. -/
def genBase : GenesisPfxInfo :=
  { firstInfo := siOur, firstStateSerialized := SharedState.mkNew siOur,
    latestInfo := SectionInfo.default0 }

/-- The base scenario chain: our id `mA`, `min_sec_size` 2. -/
def baseChain : Chain := Chain.mkNew 2 mA genBase

/-- A neighbour section info for prefix "0" (quorum-gate scenario). -/
def niQG : SectionInfo := SectionInfo.new [mQ] pfx0 Option.none

/-- The section-info event of the quorum-gate scenario. -/
def evQG : NetworkEvent := NetworkEvent.sectionInfo niQG

/-- The chain after one proof (below the 2/3 threshold for 3 members). -/
def cQG1 : Chain := (baseChain.handleOpaqueEvent evQG mA).1

/-- The chain after a second proof (crossing the threshold). -/
def cQG2 : Chain := (cQG1.handleOpaqueEvent evQG mC).1

/-- Neighbour "00" at version 3. -/
def si00v3 : SectionInfo :=
  { members := [mQ], pfx := pfx00, version := 3, prevHash := Option.none }

/-- Neighbour "00" at version 4. -/
def si00v4 : SectionInfo :=
  { members := [mQ], pfx := pfx00, version := 4, prevHash := Option.none }

/-- Neighbour "00" at version 2. -/
def si00v2 : SectionInfo :=
  { members := [mQ], pfx := pfx00, version := 2, prevHash := Option.none }

/-- A proof set that is a quorum of our 3-member section. -/
def proofsQuorum : ProofSet := [mA, mC]

/-- Chain whose neighbour map holds "00" at version 3. -/
def cC2 : Chain :=
  { baseChain with state := { baseChain.state with neighbourInfos := [(pfx00, si00v3)] } }

/-- Chain with `min_sec_size` 3 and exactly 3 members. -/
def cC5 : Chain := Chain.mkNew 3 mA genBase

/-- An opaque ack event. -/
def evAck : NetworkEvent :=
  NetworkEvent.ackMessage { srcPfx := pfx0, ackVersion := 1 }

/-- Chain in the merging phase with `evAck` already completed. -/
def cC7 : Chain :=
  { baseChain with state := { baseChain.state with change := PfxChange.merging },
                   completedEvents := [evAck] }

/-- A full-length versioned prefix (256 bits). -/
def vpFull : VersionedPfx := { pfx := Pfx.new XOR_NAME_BITS (padName []), version := 0 }

example : (cQG1.poll).2 = CRes.ok Option.none := by decide
example : (cQG2.poll).2 = CRes.ok (some evQG) := by decide

/-- Claim C10: `handle_opaque_event` returns `Ok(())` for every event and
proof — the skip, cache, already-completed and duplicate-proof paths all
end in `Ok` (with `log_or_panic!` modelled as a log, its release
behaviour). -/
theorem C10_handle_opaque_total (c : Chain) (e : NetworkEvent) (pf : PublicId) :
    (c.handleOpaqueEvent e pf).2 = CRes.ok () := by
  unfold Chain.handleOpaqueEvent
  split
  · rfl
  · split
    · rfl
    · split
      · rfl
      · rfl

/-- Claim C4: `finalise_prefix_change` resets `change`, clears the
accumulator, the completed set, the event cache and the merging set, and
returns as `cached_events` the union (modelled as concatenation) of the
non-completed own-signed accumulator entries, the event cache, and the
merging digests as `NeighbourMerge` events, together with the completed
events; a second immediate call returns empty `cached_events`. -/
theorem C4_finalise_prefix_change (c : Chain) :
    (c.finalisePrefixChange).1.state.change = PfxChange.none
    ∧ (c.finalisePrefixChange).1.chainAccumulator = []
    ∧ (c.finalisePrefixChange).1.completedEvents = []
    ∧ (c.finalisePrefixChange).1.eventCache = []
    ∧ (c.finalisePrefixChange).1.state.merging = []
    ∧ (c.finalisePrefixChange).2.cachedEvents =
        (c.chainAccumulator.filter (fun q =>
          !(evMem q.1 c.completedEvents) && q.2.containsId c.ourId)).map (fun q => q.1)
        ++ c.eventCache ++ c.state.merging.map NetworkEvent.neighbourMerge
    ∧ (c.finalisePrefixChange).2.completedEvents = c.completedEvents
    ∧ ((c.finalisePrefixChange).1.finalisePrefixChange).2.cachedEvents = [] :=
  ⟨rfl, rfl, rfl, rfl, rfl, rfl, rfl, rfl⟩

theorem candidatesFor_dg_le (c : Chain) (connected : List XorName) (t : XorName)
    (names : List XorName) (dg : Nat)
    (h : c.candidatesFor connected t = TRes.ok names dg) : dg ≤ names.length := by
  simp only [Chain.candidatesFor] at h
  split at h
  · rename_i hcond
    injection h with h1 h2
    rw [Bool.and_eq_true, decide_eq_true_eq, decide_eq_true_eq] at hcond
    subst h1
    subst h2
    exact hcond.2
  · exact TRes.noConfusion h

theorem targetsNode_dg_le (c : Chain) (t : XorName) (connected : List XorName)
    (names : List XorName) (dg : Nat)
    (h : c.targetsNode t connected = TRes.ok names dg) : dg ≤ names.length := by
  simp only [Chain.targetsNode] at h
  split at h
  · injection h with h1 h2
    subst h1; subst h2
    exact Nat.zero_le _
  · split at h
    · injection h with h1 h2
      subst h1; subst h2
      exact Nat.le_refl 1
    · exact candidatesFor_dg_le c connected t names dg h

theorem targetsGroup_dg_le (c : Chain) (t : XorName) (connected : List XorName)
    (names : List XorName) (dg : Nat)
    (h : c.targetsGroup t connected = TRes.ok names dg) : dg ≤ names.length := by
  simp only [Chain.targetsGroup] at h
  split at h
  · injection h with h1 h2
    subst h1; subst h2
    exact Nat.le_refl _
  · exact candidatesFor_dg_le c connected t names dg h

/-- Claim C9: whenever `targets` succeeds, the delivery-group size never
exceeds the number of returned targets. -/
theorem C9_dg_le_targets (c : Chain) (dst : Authority) (connected : List XorName)
    (names : List XorName) (dg : Nat)
    (h : c.targets dst connected = TRes.ok names dg) : dg ≤ names.length := by
  cases dst with
  | managedNode n => exact targetsNode_dg_le c n connected names dg h
  | client n => exact targetsNode_dg_le c n connected names dg h
  | clientManager n => exact targetsGroup_dg_le c n connected names dg h
  | naeManager n => exact targetsGroup_dg_le c n connected names dg h
  | nodeManager n => exact targetsGroup_dg_le c n connected names dg h
  | sectionAuth n => exact targetsGroup_dg_le c n connected names dg h
  | prefixSection p =>
    simp only [Chain.targets] at h
    split at h
    · split at h
      · exact TRes.noConfusion h
      · injection h with h1 h2
        subst h1; subst h2
        exact Nat.le_refl _
    · exact candidatesFor_dg_le c connected p.lowerBound names dg h

/-- Claim C9 witness instance. -/
theorem C9_dg_le_targets_witness :
    baseChain.targets (Authority.prefixSection pfx1) [] = TRes.ok [] 0 ∧ 0 ≤ 0 :=
  ⟨by decide, C9_dg_le_targets baseChain (Authority.prefixSection pfx1) [] [] 0 (by decide)⟩

/-- The neighbour invariant: every stored neighbour entry's prefix is a
neighbour of our own prefix. -/
def NeighbourInv (c : Chain) : Prop :=
  ∀ q ∈ c.state.neighbourInfos, c.ourPfx.isNeighbour q.1 = true

instance NeighbourInv.decidable (c : Chain) : Decidable (NeighbourInv c) :=
  inferInstanceAs (Decidable (∀ q ∈ c.state.neighbourInfos, c.ourPfx.isNeighbour q.1 = true))

theorem inv_checkAndClean (c : Chain) : NeighbourInv (c.checkAndCleanNeighbourInfos) := by
  intro q hq
  simp only [Chain.checkAndCleanNeighbourInfos] at hq
  have hq2 := List.mem_filter.mp hq
  have hkeep := hq2.2
  rw [Bool.and_eq_true] at hkeep
  exact hkeep.1

theorem inv_handleOpaque (c : Chain) (e : NetworkEvent) (pf : PublicId)
    (h : NeighbourInv c) : NeighbourInv ((c.handleOpaqueEvent e pf).1) := by
  unfold Chain.handleOpaqueEvent
  split
  · exact h
  · split
    · unfold Chain.cacheEvent
      split
      · exact fun q hq => h q hq
      · exact h
    · split
      · exact h
      · exact fun q hq => h q hq

theorem inv_handleChurnCore (c : Chain) (e : NetworkEvent) (ps : ProofSet)
    (h : NeighbourInv c) : NeighbourInv ((c.handleChurnCore e ps).1) := by
  unfold Chain.handleChurnCore
  split
  · unfold Chain.cacheEvent
    split
    · exact fun q hq => h q hq
    · exact h
  · split
    · exact h
    · exact fun q hq => h q hq

theorem inv_handleChurn (c : Chain) (e : NetworkEvent) (ps : ProofSet)
    (h : NeighbourInv c) : NeighbourInv ((c.handleChurnEvent e ps).1) := by
  cases e <;> first
    | exact inv_handleChurnCore c _ ps h
    | exact h

theorem inv_doAdd (c : Chain) (si : SectionInfo) (ps : ProofSet)
    (h : NeighbourInv c) : NeighbourInv ((c.doAddSectionInfo si ps).1) := by
  simp only [Chain.doAddSectionInfo]
  split
  · exact inv_checkAndClean _
  · split
    · exact inv_checkAndClean _
    · exact h

theorem inv_addSectionInfo (c : Chain) (si : SectionInfo) (ps : ProofSet)
    (h : NeighbourInv c) : NeighbourInv ((c.addSectionInfo si ps).1) := by
  simp only [Chain.addSectionInfo]
  split
  · split
    · exact fun q hq => h q hq
    · rename_i cacheInfo cacheProofs heq
      split
      · split
        · exact inv_doAdd _ cacheInfo cacheProofs (fun q hq => h q hq)
        · exact inv_doAdd _ si ps (inv_doAdd _ cacheInfo cacheProofs (fun q hq => h q hq))
      · split
        · exact inv_doAdd _ si ps (fun q hq => h q hq)
        · exact inv_doAdd _ cacheInfo cacheProofs (inv_doAdd _ si ps (fun q hq => h q hq))
  · exact inv_doAdd c si ps h

theorem inv_poll (c : Chain) (h : NeighbourInv c) : NeighbourInv ((c.poll).1) := by
  simp only [Chain.poll]
  split
  · exact h
  · rename_i event proofs heq
    split
    · rename_i si
      split
      · exact inv_addSectionInfo _ si proofs (fun q hq => h q hq)
      · split
        · split
          · exact inv_addSectionInfo _ si proofs (fun q hq => h q hq)
          · exact inv_addSectionInfo _ si proofs (fun q hq => h q hq)
        · exact inv_addSectionInfo _ si proofs (fun q hq => h q hq)
    · exact fun q hq => h q hq
    · exact fun q hq => h q hq
    · exact fun q hq => h q hq
    · exact fun q hq => h q hq
    · exact fun q hq => h q hq

theorem inv_addMember (c : Chain) (id : PublicId) (svfm : Bool)
    (h : NeighbourInv c) : NeighbourInv ((c.addMember id svfm).1) := by
  simp only [Chain.addMember]
  split
  · exact fun q hq => h q hq
  · exact fun q hq => h q hq

theorem inv_removeMember (c : Chain) (id : PublicId)
    (h : NeighbourInv c) : NeighbourInv ((c.removeMember id).1) := by
  simp only [Chain.removeMember]
  split
  · exact fun q hq => h q hq
  · exact fun q hq => h q hq

theorem inv_finalise (c : Chain) : NeighbourInv ((c.finalisePrefixChange).1) :=
  fun q hq => inv_checkAndClean c q hq

/-- Claim C3: every embedded Chain operation — event handling, polling
(including neighbour entries fabricated for a split sibling), membership
mutation, section-info integration and prefix-change finalisation —
preserves the invariant that each `neighbour_infos` entry's prefix is a
neighbour of our prefix. -/
theorem C3_neighbour_invariant (c : Chain) (h : NeighbourInv c) :
    (∀ e pf, NeighbourInv ((c.handleOpaqueEvent e pf).1))
    ∧ (∀ e ps, NeighbourInv ((c.handleChurnEvent e ps).1))
    ∧ NeighbourInv ((c.poll).1)
    ∧ (∀ id svfm, NeighbourInv ((c.addMember id svfm).1))
    ∧ (∀ id, NeighbourInv ((c.removeMember id).1))
    ∧ (∀ si ps, NeighbourInv ((c.addSectionInfo si ps).1))
    ∧ NeighbourInv ((c.finalisePrefixChange).1) :=
  ⟨fun e pf => inv_handleOpaque c e pf h,
   fun e ps => inv_handleChurn c e ps h,
   inv_poll c h,
   fun id svfm => inv_addMember c id svfm h,
   fun id => inv_removeMember c id h,
   fun si ps => inv_addSectionInfo c si ps h,
   inv_finalise c⟩

/-- Claim C3 witness instance: the invariant holds for a concrete chain
with a neighbour entry and is preserved by polling it. -/
theorem C3_neighbour_invariant_witness :
    NeighbourInv cC2 ∧ NeighbourInv ((cC2.poll).1) :=
  ⟨by decide, (C3_neighbour_invariant cC2 (by decide)).2.2.1⟩

theorem newBitCount (bc : Nat) (n : XorName) (h : bc ≤ XOR_NAME_BITS) :
    (Pfx.new bc n).bitCount = bc := Nat.min_eq_left h

theorem getBit_newName (bc : Nat) (n : XorName) (j : Nat) (hj : j < bc) :
    getBitList (Pfx.new bc n).name.val j = getBitList n.val j :=
  getBit_setFrom_lt n.val bc j false hj

theorem getBit_withBit_ne (n : XorName) (i j : Nat) (b : Bool) (hne : j ≠ i) :
    getBitList (n.withBit i b).val j = getBitList n.val j := by
  unfold XorName.withBit
  split
  · rfl
  · exact getBit_setBit_ne n.val i j b hne

theorem getBit_flipName (n : XorName) (i j : Nat) (hi : i < XOR_NAME_BITS) :
    getBitList (n.withFlippedBit i).val j =
      if j = i then !(getBitList n.val j) else getBitList n.val j := by
  unfold XorName.withFlippedBit
  rw [if_neg (by omega)]
  by_cases hji : j = i
  · subst hji
    rw [if_pos rfl]
    exact getBit_flipBit_self n.val j (by rw [n.property]; exact hi)
  · rw [if_neg hji]
    exact getBit_flipBit_ne n.val i j hji

theorem withFlippedBit_eq (p : Pfx) (i : Nat) (hi : i < p.bitCount) :
    p.withFlippedBit i = Pfx.new p.bitCount (p.name.withFlippedBit i) := by
  unfold Pfx.withFlippedBit
  rw [if_neg (by omega)]

theorem Pfx.pushpop (q : Pfx) (b : Bool) (h : q.bitCount < XOR_NAME_BITS) :
    Pfx.eqR ((q.pushed b).popped) q = true := by
  have h1 : (q.pushed b).bitCount = q.bitCount + 1 := Nat.min_eq_left (by omega)
  have hne0 : ¬((q.pushed b).bitCount = 0) := by omega
  have hbcp : ((q.pushed b).popped).bitCount = q.bitCount := by
    rw [Pfx.popped, if_neg hne0]
    simp [h1]
  apply (Pfx.eqR_true_iff _ _).mpr
  refine ⟨hbcp, ?_⟩
  intro j hj
  rw [hbcp] at hj
  have e1 : ((q.pushed b).popped).name =
      (q.pushed b).name.withBit ((q.pushed b).bitCount - 1) false := by
    rw [Pfx.popped, if_neg hne0]
  rw [e1, h1]
  have e2 : (q.pushed b).name = q.name.withBit q.bitCount b := rfl
  rw [getBit_withBit_ne _ _ _ _ (by omega), e2, getBit_withBit_ne _ _ _ _ (by omega)]

theorem Pfx.flipflip (q : Pfx) (i : Nat) (hi : i < q.bitCount) :
    Pfx.eqR ((q.withFlippedBit i).withFlippedBit i) q = true := by
  have hwf := q.wf
  have h1 := withFlippedBit_eq q i hi
  have hb1 : (q.withFlippedBit i).bitCount = q.bitCount := by
    rw [h1]
    exact newBitCount _ _ hwf
  have h2 := withFlippedBit_eq (q.withFlippedBit i) i (by rw [hb1]; exact hi)
  rw [h2]
  apply (Pfx.eqR_true_iff _ _).mpr
  have hb2 : (Pfx.new (q.withFlippedBit i).bitCount
      ((q.withFlippedBit i).name.withFlippedBit i)).bitCount = q.bitCount := by
    rw [newBitCount _ _ (by rw [hb1]; exact hwf), hb1]
  refine ⟨hb2, ?_⟩
  intro j hj
  rw [hb2] at hj
  rw [getBit_newName _ _ j (by rw [hb1]; exact hj)]
  rw [getBit_flipName _ i j (by omega)]
  by_cases hji : j = i
  · rw [if_pos hji]
    subst hji
    rw [h1, getBit_newName _ _ j hj, getBit_flipName q.name j j (by omega), if_pos rfl,
      Bool.not_not]
  · rw [if_neg hji, h1, getBit_newName _ _ j hj, getBit_flipName q.name i j (by omega),
      if_neg hji]

theorem sibling_eq (p : Pfx) (h : 0 < p.bitCount) :
    p.sibling = p.withFlippedBit (p.bitCount - 1) := by
  unfold Pfx.sibling
  rw [if_pos h]

theorem Pfx.sibsib (q : Pfx) : Pfx.eqR (q.sibling.sibling) q = true := by
  by_cases h0 : 0 < q.bitCount
  · have hs1 := sibling_eq q h0
    have hb1 : (q.sibling).bitCount = q.bitCount := by
      rw [hs1, withFlippedBit_eq q _ (by omega)]
      exact newBitCount _ _ q.wf
    have hs2 := sibling_eq q.sibling (by rw [hb1]; exact h0)
    rw [hs2, hb1, hs1]
    exact Pfx.flipflip q (q.bitCount - 1) (by omega)
  · have hid : q.sibling = q := by
      unfold Pfx.sibling
      rw [if_neg h0]
    rw [hid, hid]
    exact pfx_eqR_refl q

theorem VersionedPfx.wfb_pfx (vp : VersionedPfx) (i : Nat) :
    (vp.withFlippedBit i).pfx = vp.pfx.withFlippedBit i := by
  by_cases h : vp.pfx.bitCount ≤ i
  · rw [VersionedPfx.withFlippedBit, if_pos h, Pfx.withFlippedBit, if_pos h]
  · rw [VersionedPfx.withFlippedBit, if_neg h, Pfx.withFlippedBit, if_neg h]
    rfl

theorem VersionedPfx.wfb_version (vp : VersionedPfx) (i : Nat) :
    (vp.withFlippedBit i).version = vp.version := by
  by_cases h : vp.pfx.bitCount ≤ i
  · rw [VersionedPfx.withFlippedBit, if_pos h]
  · rw [VersionedPfx.withFlippedBit, if_neg h]
    rfl

theorem VersionedPfx.sibling_pfx (vp : VersionedPfx) :
    (vp.sibling).pfx = vp.pfx.sibling := by
  by_cases h : 0 < vp.pfx.bitCount
  · rw [VersionedPfx.sibling, if_pos h, Pfx.sibling, if_pos h, VersionedPfx.wfb_pfx]
  · rw [VersionedPfx.sibling, if_neg h, Pfx.sibling, if_neg h]

theorem VersionedPfx.sibling_version (vp : VersionedPfx) :
    (vp.sibling).version = vp.version := by
  by_cases h : 0 < vp.pfx.bitCount
  · rw [VersionedPfx.sibling, if_pos h, VersionedPfx.wfb_version]
  · rw [VersionedPfx.sibling, if_neg h]

theorem VersionedPfx.eqR_of_pfx {a b : VersionedPfx}
    (h : Pfx.eqR a.pfx b.pfx = true) (hv : a.version = b.version) :
    VersionedPfx.eqR a b = true := by
  simp [VersionedPfx.eqR, h, hv]

/-- Claim C8 (amended): the prefix round-trip laws.  `pushed`/`popped`
round-trips whenever `bit_count < XOR_NAME_BITS` (at the maximum,
`pushed` is the identity while `popped` shortens the prefix, see the
counterexample); `sibling` and `with_flipped_bit` (for `i < bit_count`)
are involutions under Rust prefix equality. -/
theorem C8_round_trip_laws (p : VersionedPfx) (b : Bool) (i : Nat) :
    (p.pfx.bitCount < XOR_NAME_BITS →
      VersionedPfx.eqR ((p.pushed b).popped) p = true)
    ∧ VersionedPfx.eqR (p.sibling.sibling) p = true
    ∧ (i < p.pfx.bitCount →
        VersionedPfx.eqR ((p.withFlippedBit i).withFlippedBit i) p = true) := by
  refine ⟨?_, ?_, ?_⟩
  · intro h
    exact VersionedPfx.eqR_of_pfx (Pfx.pushpop p.pfx b h) rfl
  · apply VersionedPfx.eqR_of_pfx
    · rw [VersionedPfx.sibling_pfx, VersionedPfx.sibling_pfx]
      exact Pfx.sibsib p.pfx
    · rw [VersionedPfx.sibling_version, VersionedPfx.sibling_version]
  · intro hi
    apply VersionedPfx.eqR_of_pfx
    · rw [VersionedPfx.wfb_pfx, VersionedPfx.wfb_pfx]
      exact Pfx.flipflip p.pfx i hi
    · rw [VersionedPfx.wfb_version, VersionedPfx.wfb_version]

/-- Claim C8 witness instance: the laws at the prefix "1", bit 0. -/
theorem C8_round_trip_laws_witness :
    pfx1.bitCount < XOR_NAME_BITS ∧ (0 : Nat) < pfx1.bitCount
    ∧ VersionedPfx.eqR (({ pfx := pfx1, version := 5 } : VersionedPfx).pushed true |>.popped)
        { pfx := pfx1, version := 5 } = true
    ∧ VersionedPfx.eqR (({ pfx := pfx1, version := 5 } : VersionedPfx).sibling.sibling)
        { pfx := pfx1, version := 5 } = true
    ∧ VersionedPfx.eqR ((({ pfx := pfx1, version := 5 } : VersionedPfx).withFlippedBit 0).withFlippedBit 0)
        { pfx := pfx1, version := 5 } = true := by
  refine ⟨by decide, by decide, ?_, ?_, ?_⟩
  · exact (C8_round_trip_laws { pfx := pfx1, version := 5 } true 0).1 (by decide)
  · exact (C8_round_trip_laws { pfx := pfx1, version := 5 } true 0).2.1
  · exact (C8_round_trip_laws { pfx := pfx1, version := 5 } true 0).2.2 (by decide)

/-- Claim C8 counterexample: at the maximum bit count the
`pushed`/`popped` round trip fails — `pushed` is the identity and
`popped` then shortens the 256-bit prefix to 255 bits. -/
theorem C8_pushed_popped_counterexample :
    VersionedPfx.eqR ((vpFull.pushed true).popped) vpFull = false := by decide

/-- Claim C1: `poll` applies a `SectionInfo` transition only if no known
compatible newer info exists (first compatible neighbour entry or our
current info), the proofs are a quorum of our current section, and — when
the info's prefix matches our name — the info is a successor of our
current info; polled events always come from accumulator entries that are
valid transitions; and in the concrete quorum-gate scenario (3 members),
one proof (below ⌈2/3·3⌉ = 2) yields `poll() = None` while a second proof
crossing the threshold makes the next `poll()` return the event. -/
theorem C1_section_info_gating :
    (∀ (c : Chain) (info : SectionInfo) (ps : ProofSet),
      c.isValidTransition (NetworkEvent.sectionInfo info) ps = true →
        (∀ n, c.compatibleNeighbourInfo info = some n →
            ¬(info.pfx.isCompatible n.pfx = true ∧ info.version ≤ n.version))
        ∧ ¬(info.pfx.isCompatible c.ourInfo.pfx = true
              ∧ info.version ≤ c.ourInfo.version)
        ∧ c.ourInfo.isQuorum ps = true
        ∧ (info.pfx.matches c.ourName = true → info.isSuccessorOf c.ourInfo = true))
    ∧ (∀ (c : Chain) (e : NetworkEvent) (c' : Chain),
        c.poll = (c', CRes.ok (some e)) →
          ∃ ps, (e, ps) ∈ c.chainAccumulator ∧ c.isValidTransition e ps = true)
    ∧ (cQG1.poll).2 = CRes.ok Option.none
    ∧ (cQG2.poll).2 = CRes.ok (some evQG) := by
  refine ⟨?_, ?_, by decide, by decide⟩
  · intro c info ps h
    simp only [Chain.isValidTransition] at h
    split at h
    · exact Bool.noConfusion h
    · rename_i hA
      rw [Bool.or_eq_true, not_or] at hA
      obtain ⟨hX, hY⟩ := hA
      have hour : ¬(info.pfx.isCompatible c.ourInfo.pfx = true
          ∧ info.version ≤ c.ourInfo.version) := by
        intro hc
        exact hY (by rw [Bool.and_eq_true, decide_eq_true_eq]; exact hc)
      have hnb : ∀ n, c.compatibleNeighbourInfo info = some n →
          ¬(info.pfx.isCompatible n.pfx = true ∧ info.version ≤ n.version) := by
        intro n hn hc
        rw [hn] at hX
        exact hX (by rw [Bool.and_eq_true, decide_eq_true_eq]; exact hc)
      split at h
      · rename_i hM
        rw [Bool.and_eq_true] at h
        exact ⟨hnb, hour, h.2, fun _ => h.1⟩
      · rename_i hM
        exact ⟨hnb, hour, h, fun hm => absurd hm hM⟩
  · intro c e c' hpoll
    simp only [Chain.poll] at hpoll
    cases hfind : c.chainAccumulator.find? (fun q => c.isValidTransition q.1 q.2) with
    | none =>
      rw [hfind] at hpoll
      simp at hpoll
    | some pair =>
      obtain ⟨event, proofs⟩ := pair
      rw [hfind] at hpoll
      have hvalid : c.isValidTransition event proofs = true := by
        simpa using List.find?_some hfind
      have hmem : (event, proofs) ∈ c.chainAccumulator :=
        List.mem_of_find?_eq_some hfind
      dsimp only at hpoll
      cases event <;> dsimp only at hpoll <;>
        first
        | (split at hpoll
           · have hsnd := congrArg Prod.snd hpoll
             simp at hsnd
           · split at hpoll
             · split at hpoll
               · have hsnd := congrArg Prod.snd hpoll
                 simp at hsnd
               · have hsnd := congrArg Prod.snd hpoll
                 dsimp only at hsnd
                 injection hsnd with h2
                 injection h2 with h3
                 rw [← h3]
                 exact ⟨proofs, hmem, hvalid⟩
             · have hsnd := congrArg Prod.snd hpoll
               dsimp only at hsnd
               injection hsnd with h2
               injection h2 with h3
               rw [← h3]
               exact ⟨proofs, hmem, hvalid⟩)
        | (have hsnd := congrArg Prod.snd hpoll
           dsimp only at hsnd
           injection hsnd with h2
           injection h2 with h3
           rw [← h3]
           exact ⟨proofs, hmem, hvalid⟩)
        | (have hsnd := congrArg Prod.snd hpoll
           simp at hsnd)

/-- Claim C1 witness instance: the gating theorem applied to the polled
quorum-gate chain. -/
theorem C1_section_info_gating_witness :
    ∃ ps, (evQG, ps) ∈ cQG2.chainAccumulator
      ∧ cQG2.isValidTransition evQG ps = true := by
  have h2 : (cQG2.poll).2 = CRes.ok (some evQG) := by decide
  refine C1_section_info_gating.2.1 cQG2 evQG (cQG2.poll).1 ?_
  calc cQG2.poll = ((cQG2.poll).1, (cQG2.poll).2) := rfl
    _ = ((cQG2.poll).1, CRes.ok (some evQG)) := by rw [h2]

/-- Claim C2 counterexample: integrating "00" at version 2 over an
existing version-3 entry is not rejected — the insert replaces the entry
with the older info (the ejected newer version is only logged), so the
version-3 entry is not intact. -/
theorem C2_older_version_counterexample :
    (cC2.addSectionInfo si00v2 proofsQuorum).2 = CRes.ok ()
    ∧ nmGet ((cC2.addSectionInfo si00v2 proofsQuorum).1.state.neighbourInfos) pfx00
        = some si00v2
    ∧ si00v2 ≠ si00v3 := by decide

/-- Claim C2 (amended): with `neighbour_infos = {"00" → v3}` on a chain
with our prefix "1", integrating "00" at version 4 with adequate proofs
replaces the v3 entry; integrating "00" at version 2 also replaces the
entry (ejecting the newer v3, which is logged as an invariant violation)
rather than being rejected. -/
theorem C2_neighbour_version_replacement :
    ((cC2.addSectionInfo si00v4 proofsQuorum).2 = CRes.ok ()
      ∧ (cC2.addSectionInfo si00v4 proofsQuorum).1.state.neighbourInfos
          = [(pfx00, si00v4)])
    ∧ ((cC2.addSectionInfo si00v2 proofsQuorum).2 = CRes.ok ()
      ∧ (cC2.addSectionInfo si00v2 proofsQuorum).1.state.neighbourInfos
          = [(pfx00, si00v2)]) := by decide

theorem isSuccessorOf_new (m : List PublicId) (p : Pfx) (prev : SectionInfo) :
    (SectionInfo.new m p (some prev)).isSuccessorOf prev = true := by
  simp [SectionInfo.new, SectionInfo.isSuccessorOf]

/-- Claim C5 (amended): with no prefix change pending, `remove_member`
removes the id from the pending membership and makes `new_info` a
successor of the previous one; when the resulting size drops below
`min_sec_size` it sets `change = Merging` and panics ("Merge not
supported") instead of returning, otherwise it returns the new
`SectionInfo` with `change` still `None`. -/
theorem C5_remove_member (c : Chain) (id : PublicId)
    (hch : c.state.change = PfxChange.none) :
    ((c.removeMember id).1).state.newInfo.members
        = c.state.newInfo.members.filter (fun m => m != id)
    ∧ ((c.removeMember id).1).state.newInfo.isSuccessorOf c.state.newInfo = true
    ∧ (((c.removeMember id).1).state.newInfo.members.length < c.minSecSize →
        ((c.removeMember id).1).state.change = PfxChange.merging
        ∧ (c.removeMember id).2 = CRes.err RoutingErr.panicked)
    ∧ (¬ ((c.removeMember id).1).state.newInfo.members.length < c.minSecSize →
        ((c.removeMember id).1).state.change = PfxChange.none
        ∧ (c.removeMember id).2 = CRes.ok (((c.removeMember id).1).state.newInfo)) := by
  simp only [Chain.removeMember]
  split
  · rename_i hlt
    exact ⟨rfl, isSuccessorOf_new _ _ _, fun _ => ⟨rfl, rfl⟩, fun hn => absurd hlt hn⟩
  · rename_i hge
    exact ⟨rfl, isSuccessorOf_new _ _ _, fun hl => absurd hl hge,
      fun _ => ⟨hch, rfl⟩⟩

/-- Claim C5 witness instance: removing a member from a 3-member section
with `min_sec_size = 2` returns the new info with `change` untouched. -/
theorem C5_remove_member_witness :
    baseChain.state.change = PfxChange.none
    ∧ ((baseChain.removeMember mB).1).state.change = PfxChange.none
    ∧ (baseChain.removeMember mB).2
        = CRes.ok (((baseChain.removeMember mB).1).state.newInfo) := by
  refine ⟨by decide, ?_, ?_⟩
  · exact ((C5_remove_member baseChain mB (by decide)).2.2.2 (by decide)).1
  · exact ((C5_remove_member baseChain mB (by decide)).2.2.2 (by decide)).2

/-- Claim C5 counterexample: on a 3-member chain with `min_sec_size = 3`,
removing a member sets `change = Merging` but panics ("Merge not
supported") rather than returning the new `SectionInfo`. -/
theorem C5_remove_member_counterexample :
    (cC5.removeMember mB).2 = CRes.err RoutingErr.panicked
    ∧ (cC5.removeMember mB).1.state.change = PfxChange.merging
    ∧ ∀ si, (cC5.removeMember mB).2 ≠ CRes.ok si := by
  refine ⟨by decide, by decide, ?_⟩
  intro si h
  rw [show (cC5.removeMember mB).2 = CRes.err RoutingErr.panicked by decide] at h
  exact CRes.noConfusion h

/-- Claim C6 (amended): for `PrefixSection(p)` with `p` compatible with
our prefix, `targets` fails with `CannotRoute` when `p` is not fully
covered by our known prefixes; otherwise it returns the *connected*
members of all compatible sections minus ourselves, with delivery-group
size equal to the number of returned targets. -/
theorem C6_prefix_section_targets (c : Chain) (p : Pfx) (connected : List XorName)
    (hcompat : p.isCompatible c.ourPfx = true) :
    (p.isCoveredBy c.knownPfxs = false →
      c.targets (Authority.prefixSection p) connected = TRes.cannotRoute)
    ∧ (p.isCoveredBy c.knownPfxs = true →
      c.targets (Authority.prefixSection p) connected =
        TRes.ok
          (((c.allSections.filter (fun q => p.isCompatible q.1)).map
              (fun q => q.2.memberNames)).flatten.filter
            (fun nm => decide (nm ∈ connected) && nm != c.ourName))
          ((((c.allSections.filter (fun q => p.isCompatible q.1)).map
              (fun q => q.2.memberNames)).flatten.filter
            (fun nm => decide (nm ∈ connected) && nm != c.ourName)).length)) := by
  constructor
  · intro hcov
    simp [Chain.targets, hcompat, hcov]
  · intro hcov
    simp [Chain.targets, hcompat, hcov]

/-- Claim C6 witness instance: the empty prefix is compatible with our
prefix "1" but not covered by our known prefixes, so routing fails. -/
theorem C6_prefix_section_targets_witness :
    pfxEmpty.isCompatible baseChain.ourPfx = true
    ∧ pfxEmpty.isCoveredBy baseChain.knownPfxs = false
    ∧ baseChain.targets (Authority.prefixSection pfxEmpty) [] = TRes.cannotRoute :=
  ⟨by decide, by decide,
   (C6_prefix_section_targets baseChain pfxEmpty [] (by decide)).1 (by decide)⟩

/-- Claim C6 counterexample: a member of a compatible section that is not
in `connected_peers` is not returned, so the result is not "the members of
all compatible sections minus ourselves" — the connectivity filter is
missing from the claim. -/
theorem C6_connected_filter_counterexample :
    Pfx.isCompatible pfx1 baseChain.ourPfx = true
    ∧ pfx1.isCoveredBy baseChain.knownPfxs = true
    ∧ mB.name ∈ baseChain.ourInfo.memberNames
    ∧ mB.name ≠ baseChain.ourName
    ∧ baseChain.targets (Authority.prefixSection pfx1) [] = TRes.ok [] 0 := by decide

/-- Key membership in the accumulator under Rust event equality. -/
def accMem (e : NetworkEvent) (l : List (NetworkEvent × ProofSet)) : Bool :=
  l.any (fun q => NetworkEvent.eqR e q.1)

/-- The event has been handled and is out of the accumulator: after this
holds, `poll` can never yield it again. -/
def OnceDone (c : Chain) (e : NetworkEvent) : Prop :=
  evMem e c.completedEvents = true ∧ accMem e c.chainAccumulator = false

instance OnceDone.decidable (c : Chain) (e : NetworkEvent) : Decidable (OnceDone c e) :=
  inferInstanceAs (Decidable (_ ∧ _))

theorem canHandleVote_of_none (c : Chain) (e : NetworkEvent)
    (h : c.state.change = PfxChange.none) : c.canHandleVote e = true := by
  unfold Chain.canHandleVote
  rw [h]
  cases e <;> rfl

theorem evMem_congr {a b : NetworkEvent} (h : NetworkEvent.eqR a b = true)
    (l : List NetworkEvent) : evMem a l = evMem b l := by
  induction l with
  | nil => rfl
  | cons x rest ih =>
    simp only [evMem, List.any_cons] at ih ⊢
    rw [NetworkEvent.eqR_congr h x, ih]

theorem evMem_evInsert_self (l : List NetworkEvent) (e : NetworkEvent) :
    evMem e (evInsert l e) = true := by
  unfold evInsert
  split
  · rename_i h
    exact h
  · simp [evMem, List.any_append, ev_eqR_refl]

theorem evMem_evInsert_mono (l : List NetworkEvent) (e e' : NetworkEvent)
    (h : evMem e l = true) : evMem e (evInsert l e') = true := by
  unfold evInsert
  split
  · exact h
  · simp only [evMem, List.any_append]
    rw [show l.any (NetworkEvent.eqR e) = true from h]
    rfl

theorem accMem_of_mem {l : List (NetworkEvent × ProofSet)} {x : NetworkEvent × ProofSet}
    (hm : x ∈ l) (e : NetworkEvent) (hx : NetworkEvent.eqR e x.1 = true) :
    accMem e l = true := by
  unfold accMem
  rw [List.any_eq_true]
  exact ⟨x, hm, hx⟩

theorem accMem_accRemove_self (e : NetworkEvent) (l : List (NetworkEvent × ProofSet)) :
    accMem e (accRemove l e) = false := by
  induction l with
  | nil => rfl
  | cons q rest ih =>
    cases hq : NetworkEvent.eqR e q.1 with
    | true => simp only [accRemove, List.filter_cons, hq, Bool.not_true]; exact ih
    | false =>
      simp only [accRemove, List.filter_cons, hq, Bool.not_false, accMem, List.any_cons]
      simp only [accMem, accRemove] at ih
      simp [hq, ih]

theorem accMem_accRemove_mono (e e' : NetworkEvent) (l : List (NetworkEvent × ProofSet))
    (h : accMem e l = false) : accMem e (accRemove l e') = false := by
  induction l with
  | nil => rfl
  | cons q rest ih =>
    simp only [accMem, List.any_cons, Bool.or_eq_false_iff] at h
    cases hq : NetworkEvent.eqR e' q.1 with
    | true =>
      simpa [accRemove, List.filter_cons, hq, accMem] using ih h.2
    | false =>
      have := ih h.2
      simpa [accRemove, List.filter_cons, hq, accMem, List.any_cons, h.1] using this

theorem accMem_accAddProof (l : List (NetworkEvent × ProofSet)) (e e' : NetworkEvent)
    (pf : PublicId) (h : accMem e l = false) (hne : NetworkEvent.eqR e e' = false) :
    accMem e (accAddProof l e' pf).1 = false := by
  induction l with
  | nil => simp [accAddProof, accMem, List.any_cons, hne]
  | cons q rest ih =>
    simp only [accMem, List.any_cons, Bool.or_eq_false_iff] at h
    simp only [accAddProof]
    split
    · split
      · simpa [accMem, List.any_cons, h.1] using h.2
      · simpa [accMem, List.any_cons, h.1] using h.2
    · have := ih h.2
      simpa [accMem, List.any_cons, h.1] using this

theorem doAdd_acc (c : Chain) (si : SectionInfo) (ps : ProofSet) :
    (c.doAddSectionInfo si ps).1.chainAccumulator = c.chainAccumulator := by
  simp only [Chain.doAddSectionInfo]
  split
  · split
    · rfl
    · rfl
  · split
    · split
      · split
        · rfl
        · rfl
      · rfl
    · rfl

theorem doAdd_completed (c : Chain) (si : SectionInfo) (ps : ProofSet) :
    (c.doAddSectionInfo si ps).1.completedEvents = c.completedEvents := by
  simp only [Chain.doAddSectionInfo]
  split
  · split
    · rfl
    · rfl
  · split
    · split
      · split
        · rfl
        · rfl
      · rfl
    · rfl

theorem addSectionInfo_acc (c : Chain) (si : SectionInfo) (ps : ProofSet) :
    (c.addSectionInfo si ps).1.chainAccumulator = c.chainAccumulator := by
  simp only [Chain.addSectionInfo]
  split
  · split
    · rfl
    · split
      · split
        · exact doAdd_acc _ _ _
        · exact (doAdd_acc _ _ _).trans (doAdd_acc _ _ _)
      · split
        · exact doAdd_acc _ _ _
        · exact (doAdd_acc _ _ _).trans (doAdd_acc _ _ _)
  · exact doAdd_acc _ _ _

theorem addSectionInfo_completed (c : Chain) (si : SectionInfo) (ps : ProofSet) :
    (c.addSectionInfo si ps).1.completedEvents = c.completedEvents := by
  simp only [Chain.addSectionInfo]
  split
  · split
    · rfl
    · split
      · split
        · exact doAdd_completed _ _ _
        · exact (doAdd_completed _ _ _).trans (doAdd_completed _ _ _)
      · split
        · exact doAdd_completed _ _ _
        · exact (doAdd_completed _ _ _).trans (doAdd_completed _ _ _)
  · exact doAdd_completed _ _ _

theorem onceDone_handleOpaque (c : Chain) (e e' : NetworkEvent) (pf : PublicId)
    (h : OnceDone c e) : OnceDone ((c.handleOpaqueEvent e' pf).1) e := by
  simp only [Chain.handleOpaqueEvent]
  split
  · exact h
  · split
    · simp only [Chain.cacheEvent]
      split
      · exact h
      · exact h
    · split
      · exact h
      · rename_i hskip hcan hcomp
        have hne : NetworkEvent.eqR e e' = false := by
          cases hx : NetworkEvent.eqR e e' with
          | false => rfl
          | true =>
            exfalso
            apply hcomp
            rw [← evMem_congr hx]
            exact h.1
        exact ⟨h.1, accMem_accAddProof _ _ _ _ h.2 hne⟩

theorem onceDone_poll_some (c : Chain) (e : NetworkEvent) (c' : Chain)
    (hpoll : c.poll = (c', CRes.ok (some e))) : OnceDone c' e := by
  simp only [Chain.poll] at hpoll
  cases hfind : c.chainAccumulator.find? (fun q => c.isValidTransition q.1 q.2) with
  | none =>
    rw [hfind] at hpoll
    simp at hpoll
  | some pair =>
    obtain ⟨event, proofs⟩ := pair
    rw [hfind] at hpoll
    dsimp only at hpoll
    cases event <;> dsimp only at hpoll <;>
      first
      | (split at hpoll
         · have hsnd := congrArg Prod.snd hpoll
           simp at hsnd
         · split at hpoll
           · split at hpoll
             · have hsnd := congrArg Prod.snd hpoll
               simp at hsnd
             · have hfst := congrArg Prod.fst hpoll
               have hsnd := congrArg Prod.snd hpoll
               dsimp only at hfst hsnd
               injection hsnd with h2
               injection h2 with h3
               rw [← h3, ← hfst]
               refine ⟨?_, ?_⟩
               · rw [addSectionInfo_completed]
                 exact evMem_evInsert_self _ _
               · rw [addSectionInfo_acc]
                 exact accMem_accRemove_self _ _
           · have hfst := congrArg Prod.fst hpoll
             have hsnd := congrArg Prod.snd hpoll
             dsimp only at hfst hsnd
             injection hsnd with h2
             injection h2 with h3
             rw [← h3, ← hfst]
             refine ⟨?_, ?_⟩
             · rw [addSectionInfo_completed]
               exact evMem_evInsert_self _ _
             · rw [addSectionInfo_acc]
               exact accMem_accRemove_self _ _)
      | (have hfst := congrArg Prod.fst hpoll
         have hsnd := congrArg Prod.snd hpoll
         dsimp only at hfst hsnd
         injection hsnd with h2
         injection h2 with h3
         rw [← h3, ← hfst]
         exact ⟨evMem_evInsert_self _ _, accMem_accRemove_self _ _⟩)
      | (have hsnd := congrArg Prod.snd hpoll
         simp at hsnd)

theorem onceDone_poll_preserve (c : Chain) (e : NetworkEvent) (c' : Chain)
    (r : CRes (Option NetworkEvent)) (h : OnceDone c e) (hpoll : c.poll = (c', r)) :
    OnceDone c' e ∧ ∀ e₀, r = CRes.ok (some e₀) → NetworkEvent.eqR e e₀ = false := by
  simp only [Chain.poll] at hpoll
  cases hfind : c.chainAccumulator.find? (fun q => c.isValidTransition q.1 q.2) with
  | none =>
    rw [hfind] at hpoll
    have hfst := congrArg Prod.fst hpoll
    have hsnd := congrArg Prod.snd hpoll
    dsimp only at hfst hsnd
    constructor
    · rw [← hfst]
      exact h
    · intro e₀ hr
      rw [← hsnd] at hr
      injection hr with hr2
      exact Option.noConfusion hr2
  | some pair =>
    obtain ⟨event, proofs⟩ := pair
    rw [hfind] at hpoll
    have hmem : (event, proofs) ∈ c.chainAccumulator := List.mem_of_find?_eq_some hfind
    have hne : NetworkEvent.eqR e event = false := by
      cases hx : NetworkEvent.eqR e event with
      | false => rfl
      | true =>
        exfalso
        have hcontra := accMem_of_mem hmem e hx
        rw [h.2] at hcontra
        exact Bool.noConfusion hcontra
    dsimp only at hpoll
    cases event <;> dsimp only at hpoll <;>
      first
      | (split at hpoll
         · have hfst := congrArg Prod.fst hpoll
           have hsnd := congrArg Prod.snd hpoll
           dsimp only at hfst hsnd
           refine ⟨?_, ?_⟩
           · rw [← hfst]
             refine ⟨?_, ?_⟩
             · rw [addSectionInfo_completed]
               exact evMem_evInsert_mono _ _ _ h.1
             · rw [addSectionInfo_acc]
               exact accMem_accRemove_mono _ _ _ h.2
           · intro e₀ hr
             rw [← hsnd] at hr
             exact CRes.noConfusion hr
         · split at hpoll
           · split at hpoll
             · have hfst := congrArg Prod.fst hpoll
               have hsnd := congrArg Prod.snd hpoll
               dsimp only at hfst hsnd
               refine ⟨?_, ?_⟩
               · rw [← hfst]
                 refine ⟨?_, ?_⟩
                 · rw [addSectionInfo_completed]
                   exact evMem_evInsert_mono _ _ _ h.1
                 · rw [addSectionInfo_acc]
                   exact accMem_accRemove_mono _ _ _ h.2
               · intro e₀ hr
                 rw [← hsnd] at hr
                 injection hr with hr2
                 exact Option.noConfusion hr2
             · have hfst := congrArg Prod.fst hpoll
               have hsnd := congrArg Prod.snd hpoll
               dsimp only at hfst hsnd
               refine ⟨?_, ?_⟩
               · rw [← hfst]
                 refine ⟨?_, ?_⟩
                 · rw [addSectionInfo_completed]
                   exact evMem_evInsert_mono _ _ _ h.1
                 · rw [addSectionInfo_acc]
                   exact accMem_accRemove_mono _ _ _ h.2
               · intro e₀ hr
                 rw [← hsnd] at hr
                 injection hr with hr2
                 injection hr2 with hr3
                 rw [← hr3]
                 exact hne
           · have hfst := congrArg Prod.fst hpoll
             have hsnd := congrArg Prod.snd hpoll
             dsimp only at hfst hsnd
             refine ⟨?_, ?_⟩
             · rw [← hfst]
               refine ⟨?_, ?_⟩
               · rw [addSectionInfo_completed]
                 exact evMem_evInsert_mono _ _ _ h.1
               · rw [addSectionInfo_acc]
                 exact accMem_accRemove_mono _ _ _ h.2
             · intro e₀ hr
               rw [← hsnd] at hr
               injection hr with hr2
               injection hr2 with hr3
               rw [← hr3]
               exact hne)
      | (have hfst := congrArg Prod.fst hpoll
         have hsnd := congrArg Prod.snd hpoll
         dsimp only at hfst hsnd
         refine ⟨?_, ?_⟩
         · rw [← hfst]
           exact ⟨evMem_evInsert_mono _ _ _ h.1, accMem_accRemove_mono _ _ _ h.2⟩
         · intro e₀ hr
           rw [← hsnd] at hr
           injection hr with hr2
           injection hr2 with hr3
           rw [← hr3]
           exact hne)
      | (have hfst := congrArg Prod.fst hpoll
         have hsnd := congrArg Prod.snd hpoll
         dsimp only at hfst hsnd
         refine ⟨?_, ?_⟩
         · rw [← hfst]
           exact ⟨evMem_evInsert_mono _ _ _ h.1, accMem_accRemove_mono _ _ _ h.2⟩
         · intro e₀ hr
           rw [← hsnd] at hr
           exact CRes.noConfusion hr)

/-- Claim C7 (amended): for a chain with no prefix change pending,
re-submitting an opaque event that is already completed is a strict no-op
returning `Ok`; and each event is polled at most once — once polled it is
completed and out of the accumulator, that status survives any further
opaque submission or poll, and no later poll returns an equal event.
(During a split or merge, re-submission of a completed own-signed event
is cached, see the counterexample.) -/
theorem C7_completed_idempotent :
    (∀ (c : Chain) (e : NetworkEvent) (pf : PublicId),
      c.state.change = PfxChange.none → evMem e c.completedEvents = true →
        c.handleOpaqueEvent e pf = (c, CRes.ok ()))
    ∧ (∀ (c : Chain) (e : NetworkEvent) (c' : Chain),
        c.poll = (c', CRes.ok (some e)) → OnceDone c' e)
    ∧ (∀ (c : Chain) (e e' : NetworkEvent) (pf : PublicId),
        OnceDone c e → OnceDone ((c.handleOpaqueEvent e' pf).1) e)
    ∧ (∀ (c : Chain) (e : NetworkEvent) (c' : Chain) (r : CRes (Option NetworkEvent)),
        OnceDone c e → c.poll = (c', r) →
          OnceDone c' e ∧ ∀ e₀, r = CRes.ok (some e₀) → NetworkEvent.eqR e e₀ = false) := by
  refine ⟨?_, onceDone_poll_some, onceDone_handleOpaque, onceDone_poll_preserve⟩
  intro c e pf hch hcomp
  simp only [Chain.handleOpaqueEvent]
  split
  · rfl
  · simp [canHandleVote_of_none c e hch, hcomp]

/-- Claim C7 witness instance: after the quorum-gate chain polls its
event, re-submitting it is a no-op. -/
theorem C7_completed_idempotent_witness :
    ((cQG2.poll).1).handleOpaqueEvent evQG mB = ((cQG2.poll).1, CRes.ok ()) :=
  C7_completed_idempotent.1 (cQG2.poll).1 evQG mB (by decide) (by decide)

/-- Claim C7 counterexample: with a prefix change in progress (change =
Merging), re-submitting an already-completed opaque event signed by
ourselves mutates the event cache — the cache path runs before the
completed-set check — so the claim fails for chains in a prefix change. -/
theorem C7_completed_resubmission_counterexample :
    evMem evAck cC7.completedEvents = true
    ∧ cC7.eventCache = []
    ∧ (cC7.handleOpaqueEvent evAck mA).1.eventCache = [evAck]
    ∧ (cC7.handleOpaqueEvent evAck mA).1 ≠ cC7 := by decide
